import Mathlib

/-!
Verification development for the `@dfinity/cbor` codec (repository
`dfinity/cbor-js`): a shallow embedding of `src/decode/decode.ts`,
`src/encode/encode.ts` and `src/cbor-value.ts` in Lean 4, together with
theorems about round-trips, header minimality, error behaviour, transform
hooks and the module-level mutable codec state.

Modelling conventions:
* Byte sequences (`Uint8Array`) are `List Nat`, each entry `< 256`.
* JS `number` values handled by the codec are integral; they are embedded
  as `Int` (exact for magnitudes up to 2^53; theorems whose content depends
  on exactness carry that bound as a hypothesis).  JS `bigint` is `Int`.
* The decoder threads the pair (input bytes, read offset) that the source
  keeps in the module-level `cborBytes` / `bytesOffset` variables; `decode`
  re-initialises the offset at entry exactly as the source does.
* Recursion through nested items is made total with a fuel parameter; a
  distinguished `fuelOut` error marks exhaustion (a model artefact that is
  proved unreachable in every theorem that relies on it).
-/

namespace Cbor

/-- The kinds of exception a call can raise.  `decodingError` and
`encodingError` embed the two error classes of the repository;
`rangeError` and `typeError` embed the built-in JS errors that the code
can raise (e.g. `DataView` reads past the end of the buffer);
`fuelOut` is the fuel-exhaustion artefact of the embedding. -/
inductive JsErr where
  | decodingError (msg : String)
  | encodingError (msg : String)
  | rangeError
  | typeError (msg : String)
  | fuelOut
deriving DecidableEq, Repr

/-- Result of `decodeUnsignedInteger`: a JS `number` (info ≤ 23 and the
1/2/4-byte fields), a JS `bigint` (the 8-byte field, via `getBigUint64`),
or the JS number `Infinity` (info 31, the indefinite-length sentinel). -/
inductive UNum where
  | unum (n : Nat)
  | ubig (n : Nat)
  | uinf
deriving DecidableEq, Repr

/-- The value model of `cbor-value.ts` (`CborValue`): JS numbers
(`num`, integral; `infy` for ±Infinity produced by decoding the
indefinite sentinel as an integer), bigints (`big`), strings, byte
sequences, arrays, string-keyed objects in insertion order, the simple
values, and the module-level `CBOR_STOP_CODE` symbol (`stopCode`),
which the type `CborSimple` of the source includes. -/
inductive CborValue where
  | num (n : Int)
  | big (n : Int)
  | infy (negative : Bool)
  | str (s : String)
  | bytes (b : List Nat)
  | arr (vs : List CborValue)
  | map (kvs : List (String × CborValue))
  | bool (b : Bool)
  | null
  | undef
  | stopCode
deriving Repr

/-- A reviver (`Reviver` in decode.ts): a user function receiving the
decoded value and the key context (`none` embeds a call where the code
passes no key argument, i.e. the JS parameter is `undefined`). -/
abbrev Reviver := CborValue → Option String → CborValue

/-- JS nullish coalescing `r ?? orig` on CBOR values: `null` and
`undefined` fall back to the original value. -/
def jsCoalesce (r orig : CborValue) : CborValue :=
  match r with
  | .null => orig
  | .undef => orig
  | _ => r

/-- The expression `reviver?.(v, k) ?? v` of the source: with no reviver
the value passes through; a present reviver's result replaces the value
unless the result is nullish. -/
def applyReviver (r : Option Reviver) (v : CborValue) (k : Option String) : CborValue :=
  match r with
  | none => v
  | some f => jsCoalesce (f v k) v

/-- Big-endian byte expansion: `beBytes k n` is the low `k` bytes of `n`,
most significant first (the layout `DataView.setUintN`/`setBigUint64`
produce with `littleEndian = false`). -/
def beBytes : Nat → Nat → List Nat
  | 0, _ => []
  | k + 1, n => beBytes k (n / 256) ++ [n % 256]

/-- Big-endian reassembly of a byte list, as `DataView.getUintN` /
`getBigUint64` read it. -/
def beVal (l : List Nat) : Nat :=
  l.foldl (fun a b => a * 256 + b) 0

/-- `n.toString(2)` of JS: the binary digit string of a `Nat`. -/
def natToBinString (n : Nat) : String :=
  ⟨Nat.toDigits 2 n⟩

/-- `${v}` for the values reaching `encodeHeader` / `decodeTag` message
interpolation: integers print in decimal, `Infinity` prints as such. -/
def uNumToString (u : UNum) : String :=
  match u with
  | .unum n => toString n
  | .ubig n => toString n
  | .uinf => "Infinity"

/-! ## UTF-8 (TextEncoder / TextDecoder)

Modelled from the spec: `TextEncoder`/`TextDecoder` are platform
builtins, not repository code.  Spec §4.3 fixes UTF-8 encoding on the
write path and leaves the behaviour on malformed byte input to "the
underlying UTF-8 decoder's replacement-character behaviour"; the decoder
below decodes every well-formed sequence exactly and substitutes U+FFFD
on byte patterns it does not recognise (the lossy choice the spec
allows). -/

/-- UTF-8 encoding of one scalar value. -/
def utf8EncodeChar (c : Char) : List Nat :=
  let v := c.toNat
  if v < 0x80 then [v]
  else if v < 0x800 then [0xC0 + v / 0x40, 0x80 + v % 0x40]
  else if v < 0x10000 then
    [0xE0 + v / 0x1000, 0x80 + v / 0x40 % 0x40, 0x80 + v % 0x40]
  else
    [0xF0 + v / 0x40000, 0x80 + v / 0x1000 % 0x40, 0x80 + v / 0x40 % 0x40, 0x80 + v % 0x40]

/-- `TextEncoder.encode` over the string's characters. -/
def utf8EncodeChars : List Char → List Nat
  | [] => []
  | c :: cs => utf8EncodeChar c ++ utf8EncodeChars cs

/-- `TextEncoder.encode` on a string. -/
def utf8Encode (s : String) : List Nat :=
  utf8EncodeChars s.data

/-- Is a byte a UTF-8 continuation byte (`0x80..0xBF`)? -/
def utf8Cont (b : Nat) : Bool :=
  0x80 ≤ b && b < 0xC0

/-- The U+FFFD replacement character. -/
def replChar : Char := Char.ofNat 0xFFFD

/-- Lossy decoding of one UTF-8 scalar from the front of a byte list
(see the section comment: exact on well-formed sequences, U+FFFD on
byte patterns the decoder does not recognise): the decoded character
and the remaining bytes. -/
def utf8DecodeStep : List Nat → Char × List Nat
  | [] => (replChar, [])
  | b0 :: rest =>
    if b0 < 0x80 then (Char.ofNat b0, rest)
    else if b0 < 0xC0 then (replChar, rest)
    else if b0 < 0xE0 then
      match rest with
      | b1 :: r1 =>
        if utf8Cont b1 then (Char.ofNat ((b0 - 0xC0) * 0x40 + (b1 - 0x80)), r1)
        else (replChar, r1)
      | [] => (replChar, [])
    else if b0 < 0xF0 then
      match rest with
      | b1 :: b2 :: r2 =>
        if utf8Cont b1 && utf8Cont b2 then
          (Char.ofNat ((b0 - 0xE0) * 0x1000 + (b1 - 0x80) * 0x40 + (b2 - 0x80)), r2)
        else (replChar, r2)
      | _ => (replChar, [])
    else if b0 < 0xF8 then
      match rest with
      | b1 :: b2 :: b3 :: r3 =>
        if utf8Cont b1 && utf8Cont b2 && utf8Cont b3 then
          (Char.ofNat ((b0 - 0xF0) * 0x40000 + (b1 - 0x80) * 0x1000 +
            (b2 - 0x80) * 0x40 + (b3 - 0x80)), r3)
        else (replChar, r3)
      | _ => (replChar, [])
    else (replChar, rest)

/-- Scalar-at-a-time decoding; each step consumes at least one byte, so
fuel equal to the byte count suffices. -/
def utf8DecodeLoop : Nat → List Nat → List Char
  | 0, _ => []
  | _ + 1, [] => []
  | f + 1, b0 :: rest =>
    match utf8DecodeStep (b0 :: rest) with
    | (c, r1) => c :: utf8DecodeLoop f r1
termination_by structural fuel _ => fuel

/-- Lossy UTF-8 decoding of a byte list to characters. -/
def utf8Decode (l : List Nat) : List Char :=
  utf8DecodeLoop l.length l

/-- `TextDecoder.decode` on a byte list. -/
def utf8DecodeString (b : List Nat) : String :=
  ⟨utf8Decode b⟩

/-! ## Decoder (`src/decode/decode.ts`)

The module variables `cborBytes` / `bytesOffset` of the source are
threaded explicitly as `(bs, off)`; every function returns the value it
produced together with the updated offset. -/

/-- `decodeMajorType`: `(firstByte & 0b1110_0000) >> 5`, written
arithmetically (equal to the bitwise form for bytes `< 256`,
which is all a `Uint8Array` can hold). -/
def decodeMajorType (firstByte : Nat) : Nat :=
  firstByte / 32 % 8

/-- `decodeInfo`: `firstByte & 0b0001_1111`. -/
def decodeInfo (firstByte : Nat) : Nat :=
  firstByte % 32

/-- `decodeNextByte`: read the header byte at the offset (error if the
input is exhausted) and advance by one. -/
def decodeNextByte (bs : List Nat) (off : Nat) : Except JsErr ((Nat × Nat) × Nat) :=
  match bs.get? off with
  | none => .error (.decodingError "Provided CBOR data is empty")
  | some firstByte => .ok ((decodeMajorType firstByte, decodeInfo firstByte), off + 1)

/-- A `DataView` read of `k` big-endian bytes at the offset: the
constructor/getter raise `RangeError` when fewer than `k` bytes remain
(the source never catches it). -/
def readUintBE (bs : List Nat) (off k : Nat) : Except JsErr (Nat × Nat) :=
  if off + k ≤ bs.length then .ok (beVal ((bs.drop off).take k), off + k)
  else .error .rangeError

/-- `decodeUnsignedInteger`: literal info, 1/2/4-byte `number` reads,
the 8-byte `getBigUint64` read (always a `bigint`), and the
`Infinity` sentinel for info 31. -/
def decodeUnsignedInteger (bs : List Nat) (off info : Nat) : Except JsErr (UNum × Nat) :=
  if info ≤ 23 then .ok (.unum info, off)
  else match info with
    | 24 =>
      match readUintBE bs off 1 with
      | .ok (n, off1) => .ok (.unum n, off1)
      | .error e => .error e
    | 25 =>
      match readUintBE bs off 2 with
      | .ok (n, off1) => .ok (.unum n, off1)
      | .error e => .error e
    | 26 =>
      match readUintBE bs off 4 with
      | .ok (n, off1) => .ok (.unum n, off1)
      | .error e => .error e
    | 27 =>
      match readUintBE bs off 8 with
      | .ok (n, off1) => .ok (.ubig n, off1)
      | .error e => .error e
    | 31 => .ok (.uinf, off)
    | _ => .error (.decodingError ("Unsupported integer info: " ++ natToBinString info))

/-- The unsigned result as a `CborValue` (major type 0). -/
def uNumToValue (u : UNum) : CborValue :=
  match u with
  | .unum n => .num n
  | .ubig n => .big n
  | .uinf => .infy false

/-- `decodeNegativeInteger`: `-1 - m` in `number` or `bigint` arithmetic
according to the representation of the magnitude (`-1 - Infinity` is
`-Infinity`). -/
def uNumToNegValue (u : UNum) : CborValue :=
  match u with
  | .unum n => .num (-1 - (n : Int))
  | .ubig n => .big (-1 - (n : Int))
  | .uinf => .infy true

/-- `decodeByteString`: read the length, reject lengths above
`Number.MAX_SAFE_INTEGER` (2^53 − 1; `Infinity` is also above it), then
advance the offset by the length and `slice` the bytes out.  `slice`
clamps at the end of the input, so a truncated body is returned short
rather than failing. -/
def decodeByteString (bs : List Nat) (off info : Nat) : Except JsErr (List Nat × Nat) :=
  match decodeUnsignedInteger bs off info with
  | .error e => .error e
  | .ok (len, off1) =>
    match len with
    | .uinf => .error (.decodingError "Byte length is too large")
    | .unum n =>
      if n > 2 ^ 53 - 1 then .error (.decodingError "Byte length is too large")
      else .ok ((bs.drop off1).take n, off1 + n)
    | .ubig n =>
      if n > 2 ^ 53 - 1 then .error (.decodingError "Byte length is too large")
      else .ok ((bs.drop off1).take n, off1 + n)

/-- `decodeTextString`: a byte string passed through the UTF-8 decoder. -/
def decodeTextString (bs : List Nat) (off info : Nat) : Except JsErr (String × Nat) :=
  match decodeByteString bs off info with
  | .error e => .error e
  | .ok (b, off1) => .ok (utf8DecodeString b, off1)

/-- `decodeSimple`: the four simple literals plus the break marker,
which decodes to the `CBOR_STOP_CODE` symbol. -/
def decodeSimple (info : Nat) : Except JsErr CborValue :=
  match info with
  | 0x14 => .ok (.bool false)
  | 0x15 => .ok (.bool true)
  | 0x16 => .ok .null
  | 0x17 => .ok .undef
  | 0x1F => .ok .stopCode
  | _ => .error (.decodingError ("Unrecognized simple type: " ++ natToBinString info))

/-- `map[key] = v` on a JS object embedded as an insertion-ordered
association list: an existing key is updated in place, a new key is
appended. -/
def jsObjSet (m : List (String × CborValue)) (k : String) (v : CborValue) :
    List (String × CborValue) :=
  match m with
  | [] => [(k, v)]
  | (k0, v0) :: t => if k0 = k then (k, v) :: t else (k0, v0) :: jsObjSet t k v

/-- The definite-length array loop of `decodeArray`, with the item
decoder for the current nesting level passed in: `values[i] =
reviver?.(item) ?? item` for each of the `n` items — note the reviver
receives no key argument. -/
def decodeArrayElems (dI : Nat → Except JsErr (CborValue × Nat)) (r : Option Reviver) :
    Nat → Nat → Except JsErr (List CborValue × Nat)
  | 0, off => .ok ([], off)
  | n + 1, off =>
    match dI off with
    | .error e => .error e
    | .ok (item, off1) =>
      match decodeArrayElems dI r n off1 with
      | .error e => .error e
      | .ok (rest, off2) => .ok (applyReviver r item none :: rest, off2)
termination_by structural n _ => n

/-- The indefinite-length array loop: decode items until one is the
`CBOR_STOP_CODE` symbol; pushed items pass through
`reviver?.(item) ?? item` (again with no key argument).  The fuel only
bounds the number of iterations. -/
def decodeArrayIndef (dI : Nat → Except JsErr (CborValue × Nat)) (r : Option Reviver) :
    Nat → Nat → Except JsErr (List CborValue × Nat)
  | 0, _ => .error .fuelOut
  | f + 1, off =>
    match dI off with
    | .error e => .error e
    | .ok (item, off1) =>
      match item with
      | .stopCode => .ok ([], off1)
      | _ =>
        match decodeArrayIndef dI r f off1 with
        | .error e => .error e
        | .ok (rest, off2) => .ok (applyReviver r item none :: rest, off2)
termination_by structural f _ => f

/-- `decodeArray`: read the length; `Infinity` selects the
indefinite-length loop; a `bigint` length makes `new Array(arrayLength)`
throw a `TypeError`. -/
def decodeArray (dI : Nat → Except JsErr (CborValue × Nat)) (loopFuel : Nat)
    (r : Option Reviver) (bs : List Nat) (off info : Nat) : Except JsErr (CborValue × Nat) :=
  match decodeUnsignedInteger bs off info with
  | .error e => .error e
  | .ok (len, off1) =>
    match len with
    | .uinf =>
      match decodeArrayIndef dI r loopFuel off1 with
      | .ok (vs, off2) => .ok (.arr vs, off2)
      | .error e => .error e
    | .unum n =>
      match decodeArrayElems dI r n off1 with
      | .ok (vs, off2) => .ok (.arr vs, off2)
      | .error e => .error e
    | .ubig _ => .error (.typeError "Cannot convert a BigInt value this operation requires a Number")

/-- The definite-length map loop of `decodeMap`: each key header must
have major type `TextString`, else `DecodingError("Map keys must be
text strings")`; then `map[key] = reviver?.(item, key) ?? item`. -/
def decodeMapEntries (dI : Nat → Except JsErr (CborValue × Nat)) (r : Option Reviver)
    (bs : List Nat) : Nat → Nat → List (String × CborValue) →
    Except JsErr (List (String × CborValue) × Nat)
  | 0, off, acc => .ok (acc, off)
  | n + 1, off, acc =>
    match decodeNextByte bs off with
    | .error e => .error e
    | .ok ((majorType, info), off1) =>
      if majorType ≠ 3 then .error (.decodingError "Map keys must be text strings")
      else
        match decodeTextString bs off1 info with
        | .error e => .error e
        | .ok (key, off2) =>
          match dI off2 with
          | .error e => .error e
          | .ok (item, off3) =>
            decodeMapEntries dI r bs n off3 (jsObjSet acc key (applyReviver r item (some key)))
termination_by structural n _ _ => n

/-- The indefinite-length map loop of the source: it exits when the next
header has major type `Simple` **or** info `Break` (the `&&` in the
`while` condition), and — unlike the definite loop — it never checks
that the key's major type is `TextString`: the header's info field is
fed straight to `decodeTextString`. -/
def decodeMapIndef (dI : Nat → Except JsErr (CborValue × Nat)) (r : Option Reviver)
    (bs : List Nat) : Nat → Nat → List (String × CborValue) →
    Except JsErr (List (String × CborValue) × Nat)
  | 0, _, _ => .error .fuelOut
  | f + 1, off, acc =>
    match decodeNextByte bs off with
    | .error e => .error e
    | .ok ((majorType, info), off1) =>
      if majorType = 7 ∨ info = 31 then .ok (acc, off1)
      else
        match decodeTextString bs off1 info with
        | .error e => .error e
        | .ok (key, off2) =>
          match dI off2 with
          | .error e => .error e
          | .ok (item, off3) =>
            decodeMapIndef dI r bs f off3 (jsObjSet acc key (applyReviver r item (some key)))
termination_by structural f _ _ => f

/-- `decodeMap`: read the length; `Infinity` selects the indefinite
loop.  A `bigint` length flows into the counted loop unchanged
(`i < mapLength` compares across number/bigint), so it is embedded as a
count. -/
def decodeMap (dI : Nat → Except JsErr (CborValue × Nat)) (loopFuel : Nat)
    (r : Option Reviver) (bs : List Nat) (off info : Nat) : Except JsErr (CborValue × Nat) :=
  match decodeUnsignedInteger bs off info with
  | .error e => .error e
  | .ok (len, off1) =>
    match len with
    | .uinf =>
      match decodeMapIndef dI r bs loopFuel off1 [] with
      | .ok (kvs, off2) => .ok (.map kvs, off2)
      | .error e => .error e
    | .unum n =>
      match decodeMapEntries dI r bs n off1 [] with
      | .ok (kvs, off2) => .ok (.map kvs, off2)
      | .error e => .error e
    | .ubig n =>
      match decodeMapEntries dI r bs n off1 [] with
      | .ok (kvs, off2) => .ok (.map kvs, off2)
      | .error e => .error e

/-- `decodeTag`: only the number `55799` (strict `===`, so an 8-byte
`bigint` encoding of the tag does not match) unwraps transparently. -/
def decodeTag (dI : Nat → Except JsErr (CborValue × Nat)) (bs : List Nat) (off info : Nat) :
    Except JsErr (CborValue × Nat) :=
  match decodeUnsignedInteger bs off info with
  | .error e => .error e
  | .ok (u, off1) =>
    match u with
    | .unum 55799 => dI off1
    | _ => .error (.decodingError ("Unsupported tag: " ++ uNumToString u ++ "."))

/-- `decodeItem`: classify the next header byte and dispatch on the major
type.  The major type is always `< 8`, so the catch-all arm is major
type 7 (`Simple`); the `Unsupported major type` throw after the switch
is unreachable.  The recursion into nested items is expressed by handing
`decodeItem f r bs` to the container/tag codecs. -/
def decodeItem : Nat → Option Reviver → List Nat → Nat → Except JsErr (CborValue × Nat)
  | 0, _, _, _ => .error .fuelOut
  | f + 1, r, bs, off =>
    match decodeNextByte bs off with
    | .error e => .error e
    | .ok ((majorType, info), off1) =>
      match majorType with
      | 0 =>
        match decodeUnsignedInteger bs off1 info with
        | .ok (u, off2) => .ok (uNumToValue u, off2)
        | .error e => .error e
      | 1 =>
        match decodeUnsignedInteger bs off1 info with
        | .ok (u, off2) => .ok (uNumToNegValue u, off2)
        | .error e => .error e
      | 2 =>
        match decodeByteString bs off1 info with
        | .ok (b, off2) => .ok (.bytes b, off2)
        | .error e => .error e
      | 3 =>
        match decodeTextString bs off1 info with
        | .ok (s, off2) => .ok (.str s, off2)
        | .error e => .error e
      | 4 => decodeArray (decodeItem f r bs) f r bs off1 info
      | 5 => decodeMap (decodeItem f r bs) f r bs off1 info
      | 6 => decodeTag (decodeItem f r bs) bs off1 info
      | _ =>
        match decodeSimple info with
        | .ok v => .ok (v, off1)
        | .error e => .error e
termination_by structural fuel _ _ _ => fuel

/-- `decode`: reset the offset, decode one item, apply the top-level
reviver call (no key).  Trailing input bytes are ignored, as in the
source.  The fuel `bs.length + 1` dominates the recursion depth of any
run (each nesting step and each indefinite iteration consumes at least
one input byte first). -/
def decode (bs : List Nat) (r : Option Reviver) : Except JsErr CborValue :=
  match decodeItem (bs.length + 1) r bs 0 with
  | .error e => .error e
  | .ok (v, _) => .ok (applyReviver r v none)

/-! ## Encoder (`src/encode/encode.ts`)

The value argument of `encodeHeader` is a JS `number` or `bigint`
(or `±Infinity`, which fails every width comparison); multi-byte fields
are written big-endian.  Modelled from the spec: the byte-order flag
`IS_LITTLE_ENDIAN` lives in the `src/util` index module, which is not
in the sources; spec §4.1 fixes "big-endian order regardless of host
byte order", and the repository's own encode tests pin the same order. -/

/-- The `CborNumber` values reaching `encodeHeader`. -/
inductive ENum where
  | jsnum (n : Int)
  | jsbig (n : Int)
  | jsinf
deriving DecidableEq, Repr

/-- `value <= c` for an `ENum` (mixed number/bigint comparisons in JS are
exact; `Infinity` exceeds every bound). -/
def enumLe (v : ENum) (c : Int) : Bool :=
  match v with
  | .jsnum n => n ≤ c
  | .jsbig n => n ≤ c
  | .jsinf => false

/-- `Number(value)` / `BigInt(value)` as a `Nat` for the byte writes;
every call site passes a non-negative finite value. -/
def enumToNat (v : ENum) : Nat :=
  match v with
  | .jsnum n => n.toNat
  | .jsbig n => n.toNat
  | .jsinf => 0

/-- `${value}` interpolation for the `EncodingError` message. -/
def enumToString (v : ENum) : String :=
  match v with
  | .jsnum n => toString n
  | .jsbig n => toString n
  | .jsinf => "Infinity"

/-- `TOKEN_VALUE_MAX` of cbor-value.ts. -/
def TOKEN_VALUE_MAX : Int := 0x17
/-- `ONE_BYTE_MAX` of cbor-value.ts. -/
def ONE_BYTE_MAX : Int := 0xff
/-- `TWO_BYTES_MAX` of cbor-value.ts. -/
def TWO_BYTES_MAX : Int := 0xffff
/-- `FOUR_BYTES_MAX` of cbor-value.ts. -/
def FOUR_BYTES_MAX : Int := 0xffffffff
/-- `EIGHT_BYTES_MAX` of cbor-value.ts. -/
def EIGHT_BYTES_MAX : Int := 0xffffffffffffffff

/-- `encodeHeader`, as the bytes it writes (each branch's
`setUint8`/`setUintN`/`setBigUint64` calls are contiguous at the write
offset): minimal-width selection by the source's cascade of
comparisons, `EncodingError` past the 64-bit range. -/
def encodeHeaderBytes (majorType : Nat) (value : ENum) : Except JsErr (List Nat) :=
  if enumLe value TOKEN_VALUE_MAX then .ok [majorType * 32 + enumToNat value]
  else if enumLe value ONE_BYTE_MAX then .ok [majorType * 32 + 24, enumToNat value % 256]
  else if enumLe value TWO_BYTES_MAX then .ok ((majorType * 32 + 25) :: beBytes 2 (enumToNat value))
  else if enumLe value FOUR_BYTES_MAX then .ok ((majorType * 32 + 26) :: beBytes 4 (enumToNat value))
  else if enumLe value EIGHT_BYTES_MAX then .ok ((majorType * 32 + 27) :: beBytes 8 (enumToNat value))
  else .error (.encodingError ("Value too large to encode: " ++ enumToString value))

/-- `mapSimple`: the wire codes of the four simple values.  (The source's
final throw is unreachable from `encodeItem`, which only routes
`false`/`true`/`null`/`undefined` here.) -/
def mapSimple (b : CborValue) : Nat :=
  match b with
  | .bool false => 0x14
  | .bool true => 0x15
  | .null => 0x16
  | _ => 0x17

/-- `encodeNumber`/`encodeUnsignedInteger`/`encodeNegativeInteger` as the
`ENum` handed to `encodeHeader` together with the major type:
non-negative values keep major type 0, negative ones use major type 1
with magnitude `-1 - value` in the value's own arithmetic. -/
def encodeNumberBytes (v : CborValue) : Except JsErr (List Nat) :=
  match v with
  | .num n => if 0 ≤ n then encodeHeaderBytes 0 (.jsnum n) else encodeHeaderBytes 1 (.jsnum (-1 - n))
  | .big n => if 0 ≤ n then encodeHeaderBytes 0 (.jsbig n) else encodeHeaderBytes 1 (.jsbig (-1 - n))
  | .infy false => encodeHeaderBytes 0 .jsinf
  | _ => encodeHeaderBytes 1 .jsinf

/-- `encodeBytes`: header with the payload length, then the raw bytes. -/
def encodeBytesBytes (majorType : Nat) (payload : List Nat) : Except JsErr (List Nat) :=
  match encodeHeaderBytes majorType (.jsnum payload.length) with
  | .error e => .error e
  | .ok h => .ok (h ++ payload)

/-- `encodeTextString`: UTF-8 encode, then the byte-run writer with major
type 3. -/
def encodeTextStringBytes (s : String) : Except JsErr (List Nat) :=
  encodeBytesBytes 3 (utf8Encode s)

mutual

/-- Nesting depth of a value (1 for scalars): the recursion depth both
codecs need for it. -/
def vdepth : CborValue → Nat
  | .arr vs => 1 + ldepth vs
  | .map kvs => 1 + edepth kvs
  | _ => 1

/-- Depth of a list of values. -/
def ldepth : List CborValue → Nat
  | [] => 0
  | v :: t => max (vdepth v) (ldepth t)

/-- Depth of a list of map entries. -/
def edepth : List (String × CborValue) → Nat
  | [] => 0
  | (_, v) :: t => max (vdepth v) (edepth t)

end

/-- The bytes of the elements of an array, in order, with the item
encoder for the current nesting level passed in. -/
def encodeListBytes (eB : CborValue → Except JsErr (List Nat)) :
    List CborValue → Except JsErr (List Nat)
  | [] => .ok []
  | v :: t =>
    match eB v with
    | .error e => .error e
    | .ok hb =>
      match encodeListBytes eB t with
      | .error e => .error e
      | .ok tb => .ok (hb ++ tb)
termination_by structural vs => vs

/-- The bytes of the entries of a map, in `Object.entries` (insertion)
order: each key as a text string, then its value. -/
def encodeEntriesBytes (eB : CborValue → Except JsErr (List Nat)) :
    List (String × CborValue) → Except JsErr (List Nat)
  | [] => .ok []
  | (k, v) :: t =>
    match encodeTextStringBytes k with
    | .error e => .error e
    | .ok kb =>
      match eB v with
      | .error e => .error e
      | .ok vb =>
        match encodeEntriesBytes eB t with
        | .error e => .error e
        | .ok tb => .ok (kb ++ vb ++ tb)
termination_by structural kvs => kvs

/-- The bytes `encodeItem` appends for a value when no replacer is
supplied: within one non-reentrant call every write lands contiguously
at the write offset, so the call's write stream is the concatenation of
its writes.  This is the idealised byte-stream view: buffer capacity and
the `RangeError` of a write past the end live in the stateful
`encodeItemS` below, and `encodeItemS_none_sound` proves a successful
stateful run writes exactly this stream (a run can additionally fail on
capacity, which this view does not see — `capacityTrap`).
The dispatch order follows the source: simple
values, numbers, strings, byte strings, arrays, then any other object
as a map; a symbol (`CBOR_STOP_CODE`) falls through every test to the
`Unsupported type` throw.  The fuel only bounds nesting depth. -/
def encodeItemBytes : Nat → CborValue → Except JsErr (List Nat)
  | 0, _ => .error .fuelOut
  | f + 1, item =>
    match item with
    | .bool b => encodeHeaderBytes 7 (.jsnum (mapSimple (.bool b)))
    | .null => encodeHeaderBytes 7 (.jsnum (mapSimple .null))
    | .undef => encodeHeaderBytes 7 (.jsnum (mapSimple .undef))
    | .num n => encodeNumberBytes (.num n)
    | .big n => encodeNumberBytes (.big n)
    | .infy b => encodeNumberBytes (.infy b)
    | .str s => encodeTextStringBytes s
    | .bytes b => encodeBytesBytes 2 b
    | .arr vs =>
      match encodeHeaderBytes 4 (.jsnum vs.length) with
      | .error e => .error e
      | .ok h =>
        match encodeListBytes (encodeItemBytes f) vs with
        | .error e => .error e
        | .ok body => .ok (h ++ body)
    | .map kvs =>
      match encodeHeaderBytes 5 (.jsnum kvs.length) with
      | .error e => .error e
      | .ok h =>
        match encodeEntriesBytes (encodeItemBytes f) kvs with
        | .error e => .error e
        | .ok body => .ok (h ++ body)
    | .stopCode => .error (.encodingError "Unsupported type: symbol")
termination_by structural fuel _ => fuel

/-- The byte stream of `encode(value)` with no replacer.  The real call
writes it into the module buffer and slices it back out; depending on
the inherited buffer capacity it can instead fail with `RangeError`
(see `encodeTopS` and `capacityTrap`).  `encodeTopS_none_sound` proves
that a call which does return bytes returns exactly these. -/
def encode (value : CborValue) : Except JsErr (List Nat) :=
  encodeItemBytes (vdepth value) value

/-! ### The module-level output state

`encode.ts` keeps `target`/`targetView`/`bytesOffset` in module scope.
`EncState` embeds that state: the buffer contents, the buffer's `length`
property (a `Uint8Array` knows its length in O(1); at every state the
code builds, `cap = target.length` — theorems over arbitrary inherited
states carry that equality as a hypothesis), and the write offset.
The capacity matters: only `encodeItem` checks for headroom (fewer than
`SAFE_BUFFER_END_OFFSET` bytes left doubles the buffer), `encodeBytes`
checks only for its payload (and `>` lets an exact fit through), and the
map loop's `encodeTextString(key)` call is not guarded at all, so a
`DataView`/`Uint8Array.set` write past the end raises `RangeError`. -/

structure EncState where
  target : List Nat
  cap : Nat
  offset : Nat
deriving DecidableEq, Repr

/-- `INITIAL_BUFFER_SIZE` of encode.ts: the fresh module buffer's
capacity. -/
def INITIAL_BUFFER_SIZE : Nat := 2 * 1024

/-- `SAFE_BUFFER_END_OFFSET` of encode.ts (as the JS number it is
compared with). -/
def SAFE_BUFFER_END_OFFSET : Int := 100

/-- `resizeUint8Array` of src/util/typed-array.ts: a fresh zero-filled
buffer of the new size with the old contents copied in (both call sites
only ever grow the buffer; `len` is the old buffer's `length`). -/
def resizeUint8Array (t : List Nat) (len newSize : Nat) : List Nat :=
  t ++ List.replicate (newSize - len) 0

/-- A run of `DataView` setter / `Uint8Array.set` writes at the offset:
`RangeError` if it would pass the end of the buffer (the setters
range-check each call; the run fails exactly when its last byte does not
fit), else the bytes replace the region and the offset advances. -/
def writeBytesAt (s : EncState) (w : List Nat) : Except JsErr EncState :=
  if s.offset + w.length ≤ s.cap
  then .ok ⟨s.target.take s.offset ++ w ++ s.target.drop (s.offset + w.length),
    s.cap, s.offset + w.length⟩
  else .error .rangeError

/-- The headroom check opening `encodeItem`: fewer than
`SAFE_BUFFER_END_OFFSET` bytes left doubles the buffer. -/
def ensureItemHeadroom (s : EncState) : EncState :=
  if (s.offset : Int) > (s.cap : Int) - SAFE_BUFFER_END_OFFSET
  then ⟨resizeUint8Array s.target s.cap (s.cap * 2), s.cap * 2, s.offset⟩
  else s

/-- The payload check of `encodeBytes`: a payload that would pass the
end grows the buffer by the payload length.  The strict `>` lets a
payload that ends exactly at the buffer's end through without growing. -/
def ensurePayloadRoom (s : EncState) (n : Nat) : EncState :=
  if (s.offset : Int) > (s.cap : Int) - (n : Int)
  then ⟨resizeUint8Array s.target s.cap (s.cap + n), s.cap + n, s.offset⟩
  else s

/-- `encodeHeader` against the buffer: the byte computation of
`encodeHeaderBytes`, written with the `DataView` setters (which
range-check; there is no headroom check here). -/
def encodeHeaderS (majorType : Nat) (value : ENum) (s : EncState) : Except JsErr EncState :=
  match encodeHeaderBytes majorType value with
  | .error e => .error e
  | .ok w => writeBytesAt s w

/-- `encodeBytes` against the buffer: the unguarded header write, then
the payload-room check and the payload write. -/
def encodeBytesS (majorType : Nat) (payload : List Nat) (s : EncState) :
    Except JsErr EncState :=
  match encodeHeaderS majorType (.jsnum payload.length) s with
  | .error e => .error e
  | .ok s1 => writeBytesAt (ensurePayloadRoom s1 payload.length) payload

/-- `encodeTextString` against the buffer. -/
def encodeTextStringS (str : String) (s : EncState) : Except JsErr EncState :=
  encodeBytesS 3 (utf8Encode str) s

/-- `encodeNumber`/`encodeSimple` against the buffer: one header write. -/
def encodeNumberS (v : CborValue) (s : EncState) : Except JsErr EncState :=
  match encodeNumberBytes v with
  | .error e => .error e
  | .ok w => writeBytesAt s w

/-- A replacer as a JS function value: it may read and clobber the
module-level encoder state (e.g. by reentrantly calling `encode`), so it
maps (value, key, state) to (result, state). -/
abbrev SReplacer := CborValue → Option String → EncState → CborValue × EncState

/-- A pure replacer lifted to the stateful interface. -/
def pureRepl (f : CborValue → Option String → CborValue) : SReplacer :=
  fun v k s => (f v k, s)

/-- `replacer?.(v, k) ?? v` with the module state threaded through the
call. -/
def applyRepl (repl : Option SReplacer) (v : CborValue) (k : Option String) (s : EncState) :
    CborValue × EncState :=
  match repl with
  | none => (v, s)
  | some f =>
    let (r, s1) := f v k s
    (jsCoalesce r v, s1)

/-- `items.forEach((item, i) => encodeItem(replacer?.(item, i.toString())
?? item, replacer))`, with the item encoder for the current nesting
level passed in. -/
def encodeArrayItemsS (eI : CborValue → EncState → Except JsErr EncState)
    (repl : Option SReplacer) : List CborValue → Nat → EncState → Except JsErr EncState
  | [], _, s => .ok s
  | v :: t, i, s =>
    match applyRepl repl v (some (toString i)) s with
    | (v1, s1) =>
      match eI v1 s1 with
      | .error e => .error e
      | .ok s2 => encodeArrayItemsS eI repl t (i + 1) s2
termination_by structural vs _ _ => vs

/-- `mapEntries.forEach(([key, value]) => { encodeTextString(key);
encodeItem(replacer?.(value, key) ?? value, replacer); })` — the
replacer is applied to values, never to keys, and the key write is not
preceded by any headroom check. -/
def encodeMapEntriesS (eI : CborValue → EncState → Except JsErr EncState)
    (repl : Option SReplacer) : List (String × CborValue) → EncState → Except JsErr EncState
  | [], s => .ok s
  | (k, v) :: t, s =>
    match encodeTextStringS k s with
    | .error e => .error e
    | .ok s1 =>
      match applyRepl repl v (some k) s1 with
      | (v1, s2) =>
        match eI v1 s2 with
        | .error e => .error e
        | .ok s3 => encodeMapEntriesS eI repl t s3
termination_by structural kvs _ => kvs

/-- `encodeItem` against the module-level state: the headroom check,
then the branch's `encodeHeader`/`set` write runs at the write offset;
containers interleave replacer calls exactly as the source does.  The
fuel bounds the recursion depth, which a replacer may make arbitrarily
deep. -/
def encodeItemS : Nat → Option SReplacer → CborValue → EncState → Except JsErr EncState
  | 0, _, _, _ => .error .fuelOut
  | f + 1, repl, item, s0 =>
    let s := ensureItemHeadroom s0
    match item with
    | .bool b => encodeHeaderS 7 (.jsnum (mapSimple (.bool b))) s
    | .null => encodeHeaderS 7 (.jsnum (mapSimple .null)) s
    | .undef => encodeHeaderS 7 (.jsnum (mapSimple .undef)) s
    | .num n => encodeNumberS (.num n) s
    | .big n => encodeNumberS (.big n) s
    | .infy b => encodeNumberS (.infy b) s
    | .str str => encodeTextStringS str s
    | .bytes b => encodeBytesS 2 b s
    | .arr vs =>
      match encodeHeaderS 4 (.jsnum vs.length) s with
      | .error e => .error e
      | .ok s1 => encodeArrayItemsS (encodeItemS f repl) repl vs 0 s1
    | .map kvs =>
      match encodeHeaderS 5 (.jsnum kvs.length) s with
      | .error e => .error e
      | .ok s1 => encodeMapEntriesS (encodeItemS f repl) repl kvs s1
    | .stopCode => .error (.encodingError "Unsupported type: symbol")
termination_by structural fuel _ _ _ => fuel

/-- The body of `encode(value, replacer)` run against an inherited module
state `s`: reset `bytesOffset` to 0 (the buffer and its capacity are
inherited), apply the top-level replacer call (no key), encode, and
return `target.slice(0, bytesOffset)` together with the module state the
call leaves behind. -/
def encodeTopS (fuel : Nat) (repl : Option SReplacer) (value : CborValue) (s : EncState) :
    Except JsErr (List Nat × EncState) :=
  let s0 : EncState := ⟨s.target, s.cap, 0⟩
  let (v1, s1) := applyRepl repl value none s0
  match encodeItemS fuel repl v1 s1 with
  | .error e => .error e
  | .ok s2 => .ok (s2.target.take s2.offset, s2)

/-- A module whose encoder state has not been used yet: the fresh
2048-byte zero-filled buffer. -/
def freshEncState : EncState := ⟨List.replicate INITIAL_BUFFER_SIZE 0, INITIAL_BUFFER_SIZE, 0⟩

/-! ## Value measures and the canonical-form predicate -/

/-- No two entries share a key (JS objects cannot). -/
def noDupKeys : List (String × CborValue) → Bool
  | [] => true
  | (k, _) :: t => !((t.map Prod.fst).contains k) && noDupKeys t

mutual

/-- Canonical form: the values for which the codec pair round-trips
exactly.  Numbers must carry the representation the decoder reproduces:
a JS `number` iff the wire field is at most 4 bytes (magnitude below
2^32), a `bigint` iff it is the 8-byte field (magnitude in [2^32, 2^64),
i.e. value in [2^32, 2^64−1] or [−2^64, −2^32−1]); byte-sequence entries
fit in a byte; lengths stay below 2^32; map keys are distinct; the
stop-code symbol and ±Infinity never appear. -/
def canonical : CborValue → Bool
  | .num n => -(2 ^ 32) ≤ n && n < 2 ^ 32
  | .big n => (2 ^ 32 ≤ n && n ≤ 2 ^ 64 - 1) || (-(2 ^ 64) ≤ n && n < -(2 ^ 32))
  | .infy _ => false
  | .str s => (utf8Encode s).length < 2 ^ 32
  | .bytes b => b.length < 2 ^ 32 && b.all (· < 256)
  | .arr vs => vs.length < 2 ^ 32 && canonicalList vs
  | .map kvs => kvs.length < 2 ^ 32 && noDupKeys kvs && canonicalEntries kvs
  | .bool _ => true
  | .null => true
  | .undef => true
  | .stopCode => false

/-- Canonical form of every element. -/
def canonicalList : List CborValue → Bool
  | [] => true
  | v :: t => canonical v && canonicalList t

/-- Canonical form of every entry: key byte-length in range, value
canonical. -/
def canonicalEntries : List (String × CborValue) → Bool
  | [] => true
  | (k, v) :: t => (utf8Encode k).length < 2 ^ 32 && canonical v && canonicalEntries t

end

/-! ## Definitions used in theorem statements -/

/-- The unsigned magnitude `encode` sends to the header writer for an
integer: the value itself when non-negative, `-1 - value` otherwise. -/
def jsMagnitude (n : Int) : Nat :=
  (if 0 ≤ n then n else -1 - n).toNat

/-- The number of trailing bytes of the header variant `encodeHeader`
selects for a magnitude. -/
def minTrailingLen (m : Nat) : Nat :=
  if m ≤ 23 then 0
  else if m ≤ 0xff then 1
  else if m ≤ 0xffff then 2
  else if m ≤ 0xffffffff then 4
  else 8

/-- The info code of that variant (literal value, or 24/25/26/27). -/
def infoCodeOf (m : Nat) : Nat :=
  match minTrailingLen m with
  | 0 => m
  | 1 => 24
  | 2 => 25
  | 4 => 26
  | _ => 27

/-- A trailing-byte count `t` from CBOR's header menu can represent the
magnitude `m`: the literal form holds values up to 23, a `t`-byte field
holds values below `2^(8t)`. -/
def widthFits (m t : Nat) : Prop :=
  (t = 0 ∧ m ≤ 23) ∨ (0 < t ∧ m < 2 ^ (8 * t))

/-- What minimal-width emission means for the output of `encode` on an
integer of magnitude `m`: one header byte holding the selected info
code, exactly `minTrailingLen m` trailing bytes, and no narrower
variant from the header menu can represent the magnitude. -/
def MinimalOut (majorType : Nat) (m : Nat) (bs : List Nat) : Prop :=
  bs.length = 1 + minTrailingLen m ∧
  bs.head? = some (majorType * 32 + infoCodeOf m) ∧
  ∀ t, (t = 0 ∨ t = 1 ∨ t = 2 ∨ t = 4 ∨ t = 8) → widthFits m t → minTrailingLen m ≤ t

/-- A reviver that reports the key context it receives on numbers: the
key string when one is passed, `"nokey"` when none is. -/
def keyProbeReviver : Reviver := fun v k =>
  match v, k with
  | .num _, some s => .str s
  | .num _, none => .str "nokey"
  | _, _ => v

/-- A reviver that returns `null` for every node. -/
def constNullReviver : Reviver := fun _ _ => .null

/-- A reviver that returns the number `m` for every node. -/
def constNumReviver (m : Int) : Reviver := fun _ _ => .num m

/-- A replacer that reentrantly calls `encode(true)` (which resets the
module write offset and overwrites the buffer) before returning the
value unchanged. -/
def reentrantReplacer : SReplacer := fun v _ s =>
  match encodeTopS 2 none (.bool true) s with
  | .ok (_, s1) => (v, s1)
  | .error _ => (v, s)

/-- The canonical value whose map-key header write lands exactly at the
end of the fresh 2048-byte module buffer: `{a: Uint8Array(2042), b: 0}`.
Encoding it writes the map header, the key `"a"`, the 3-byte byte-string
header and then the 2042-byte payload, which the payload check lets end
exactly at offset 2048; the next key's unguarded `setUint8(2048, ...)`
then raises `RangeError` on the fresh module, while a module whose
buffer has grown encodes the same value successfully. -/
def capacityTrap : CborValue :=
  .map [("a", .bytes (List.replicate 2042 0)), ("b", .num 0)]

/-- Structural induction over the value model that hands the inductive
hypothesis to every array element and map entry. -/
def cborInduction {P : CborValue → Prop}
    (hnum : ∀ n, P (.num n)) (hbig : ∀ n, P (.big n)) (hinfy : ∀ b, P (.infy b))
    (hstr : ∀ s, P (.str s)) (hbytes : ∀ b, P (.bytes b))
    (harr : ∀ vs, (∀ v ∈ vs, P v) → P (.arr vs))
    (hmap : ∀ kvs, (∀ kv ∈ kvs, P kv.2) → P (.map kvs))
    (hbool : ∀ b, P (.bool b)) (hnull : P .null) (hundef : P .undef)
    (hstop : P .stopCode) : ∀ v, P v
  | .num n => hnum n
  | .big n => hbig n
  | .infy b => hinfy b
  | .str s => hstr s
  | .bytes b => hbytes b
  | .arr vs =>
    harr vs (fun v hv =>
      cborInduction hnum hbig hinfy hstr hbytes harr hmap hbool hnull hundef hstop v)
  | .map kvs =>
    hmap kvs (fun kv hkv =>
      cborInduction hnum hbig hinfy hstr hbytes harr hmap hbool hnull hundef hstop kv.2)
  | .bool b => hbool b
  | .null => hnull
  | .undef => hundef
  | .stopCode => hstop
termination_by v => sizeOf v
decreasing_by
  · have := List.sizeOf_lt_of_mem hv
    simp only [CborValue.arr.sizeOf_spec]
    omega
  · obtain ⟨a, b⟩ := kv
    have := List.sizeOf_lt_of_mem hkv
    simp only [CborValue.map.sizeOf_spec, Prod.mk.sizeOf_spec] at *
    omega

/-- The round-trip property of a single value: wherever its encoding
sits inside a larger input, `decodeItem` (with enough fuel and no
reviver) returns exactly the value and stops at the end of its bytes. -/
def DecOK (v : CborValue) : Prop :=
  ∀ (pre post eb : List Nat) (fuel : Nat), canonical v = true → encode v = .ok eb →
    vdepth v ≤ fuel →
    decodeItem fuel none (pre ++ eb ++ post) pre.length = .ok (v, pre.length + eb.length)

/-! ## Helper lemmas: UTF-8 round-trip -/

theorem char_toNat_valid (c : Char) :
    c.toNat < 0xd800 ∨ (0xdfff < c.toNat ∧ c.toNat < 0x110000) := by
  have h := c.valid
  rcases h with h | ⟨h1, h2⟩
  · left
    exact h
  · right
    exact ⟨h1, h2⟩

theorem utf8Cont_of_mod (v : Nat) : utf8Cont (0x80 + v % 0x40) = true := by
  simp only [utf8Cont, Bool.and_eq_true, decide_eq_true_eq]
  omega

/-- The UTF-8 encoding of a character is nonempty. -/
theorem utf8EncodeChar_ne_nil (c : Char) : utf8EncodeChar c ≠ [] := by
  rw [utf8EncodeChar]
  split <;> simp_all
  split <;> simp_all
  split <;> simp_all

/-- One decoding step on the encoding of a character followed by any
tail consumes exactly that character's bytes and yields the
character. -/
theorem utf8DecodeStep_encodeChar (c : Char) (rest : List Nat) :
    utf8DecodeStep (utf8EncodeChar c ++ rest) = (c, rest) := by
  have hv := char_toNat_valid c
  have hofnat : Char.ofNat c.toNat = c := Char.ofNat_toNat c
  rcases Nat.lt_or_ge c.toNat 0x80 with h1 | h1
  · rw [utf8EncodeChar]
    simp only [h1, if_pos]
    rw [List.cons_append, List.nil_append]
    simp only [utf8DecodeStep, if_pos h1, hofnat]
  · rcases Nat.lt_or_ge c.toNat 0x800 with h2 | h2
    · rw [utf8EncodeChar]
      simp only [if_neg (by omega : ¬ c.toNat < 0x80), if_pos h2]
      rw [List.cons_append, List.cons_append, List.nil_append]
      simp only [utf8DecodeStep, if_neg (by omega : ¬ 0xC0 + c.toNat / 0x40 < 0x80),
        if_neg (by omega : ¬ 0xC0 + c.toNat / 0x40 < 0xC0),
        if_pos (by omega : 0xC0 + c.toNat / 0x40 < 0xE0), utf8Cont_of_mod, if_pos]
      have hval : (0xC0 + c.toNat / 0x40 - 0xC0) * 0x40 + (0x80 + c.toNat % 0x40 - 0x80) =
          c.toNat := by
        omega
      rw [hval, hofnat]
    · rcases Nat.lt_or_ge c.toNat 0x10000 with h3 | h3
      · rw [utf8EncodeChar]
        simp only [if_neg (by omega : ¬ c.toNat < 0x80),
          if_neg (by omega : ¬ c.toNat < 0x800), if_pos h3]
        rw [List.cons_append, List.cons_append, List.cons_append, List.nil_append]
        simp only [utf8DecodeStep, if_neg (by omega : ¬ 0xE0 + c.toNat / 0x1000 < 0x80),
          if_neg (by omega : ¬ 0xE0 + c.toNat / 0x1000 < 0xC0),
          if_neg (by omega : ¬ 0xE0 + c.toNat / 0x1000 < 0xE0),
          if_pos (by omega : 0xE0 + c.toNat / 0x1000 < 0xF0), utf8Cont_of_mod,
          Bool.and_self, if_pos]
        have hval : (0xE0 + c.toNat / 0x1000 - 0xE0) * 0x1000 +
            (0x80 + c.toNat / 0x40 % 0x40 - 0x80) * 0x40 + (0x80 + c.toNat % 0x40 - 0x80) =
            c.toNat := by
          omega
        rw [hval, hofnat]
      · have hlt : c.toNat < 0x110000 := by omega
        rw [utf8EncodeChar]
        simp only [if_neg (by omega : ¬ c.toNat < 0x80),
          if_neg (by omega : ¬ c.toNat < 0x800), if_neg (by omega : ¬ c.toNat < 0x10000)]
        rw [List.cons_append, List.cons_append, List.cons_append, List.cons_append,
          List.nil_append]
        simp only [utf8DecodeStep, if_neg (by omega : ¬ 0xF0 + c.toNat / 0x40000 < 0x80),
          if_neg (by omega : ¬ 0xF0 + c.toNat / 0x40000 < 0xC0),
          if_neg (by omega : ¬ 0xF0 + c.toNat / 0x40000 < 0xE0),
          if_neg (by omega : ¬ 0xF0 + c.toNat / 0x40000 < 0xF0),
          if_pos (by omega : 0xF0 + c.toNat / 0x40000 < 0xF8), utf8Cont_of_mod,
          Bool.and_self, if_pos]
        have hval : (0xF0 + c.toNat / 0x40000 - 0xF0) * 0x40000 +
            (0x80 + c.toNat / 0x1000 % 0x40 - 0x80) * 0x1000 +
            (0x80 + c.toNat / 0x40 % 0x40 - 0x80) * 0x40 + (0x80 + c.toNat % 0x40 - 0x80) =
            c.toNat := by
          omega
        rw [hval, hofnat]

/-- With fuel at least the byte count, decoding the UTF-8 encoding of a
character list recovers it. -/
theorem utf8DecodeLoop_encodeChars (cs : List Char) (fuel : Nat)
    (h : (utf8EncodeChars cs).length ≤ fuel) :
    utf8DecodeLoop fuel (utf8EncodeChars cs) = cs := by
  induction cs generalizing fuel with
  | nil =>
    cases fuel <;> rfl
  | cons c t ih =>
    rw [utf8EncodeChars] at h ⊢
    obtain ⟨b0, r0, hsplit⟩ : ∃ b0 r0, utf8EncodeChar c = b0 :: r0 := by
      cases hchar : utf8EncodeChar c with
      | nil => exact absurd hchar (utf8EncodeChar_ne_nil c)
      | cons b0 r0 => exact ⟨b0, r0, rfl⟩
    have hlen : (utf8EncodeChar c).length + (utf8EncodeChars t).length ≤ fuel := by
      simpa [List.length_append] using h
    have hpos : 1 ≤ (utf8EncodeChar c).length := by
      rw [hsplit]
      simp
    obtain ⟨f, rfl⟩ : ∃ f, fuel = f + 1 := ⟨fuel - 1, by omega⟩
    rw [hsplit, List.cons_append, utf8DecodeLoop, ← List.cons_append, ← hsplit,
      utf8DecodeStep_encodeChar]
    show c :: utf8DecodeLoop f (utf8EncodeChars t) = c :: t
    rw [ih f (by omega)]

/-- Decoding the UTF-8 encoding of a character list recovers it. -/
theorem utf8Decode_encodeChars (cs : List Char) :
    utf8Decode (utf8EncodeChars cs) = cs :=
  utf8DecodeLoop_encodeChars cs _ le_rfl

/-- Decoding the UTF-8 encoding of a string recovers it. -/
theorem utf8DecodeString_encode (s : String) : utf8DecodeString (utf8Encode s) = s := by
  rw [utf8Encode, utf8DecodeString, utf8Decode_encodeChars]

/-! ## Helper lemmas: bytes and headers -/

theorem beBytes_length (k n : Nat) : (beBytes k n).length = k := by
  induction k generalizing n with
  | zero => rfl
  | succ k ih =>
    rw [beBytes]
    simp [ih]

theorem beVal_append_one (l : List Nat) (b : Nat) : beVal (l ++ [b]) = beVal l * 256 + b := by
  rw [beVal, beVal, List.foldl_append]
  rfl

theorem beVal_beBytes (k n : Nat) (h : n < 256 ^ k) : beVal (beBytes k n) = n := by
  induction k generalizing n with
  | zero =>
    interval_cases n
    rfl
  | succ k ih =>
    rw [beBytes, beVal_append_one, ih (n / 256) (by
      have h256 : 0 < 256 := by norm_num
      rw [Nat.div_lt_iff_lt_mul h256]
      calc n < 256 ^ (k + 1) := h
        _ = 256 ^ k * 256 := by ring)]
    omega

theorem readUintBE_at (pre w post : List Nat) (k : Nat) (hw : w.length = k) :
    readUintBE (pre ++ w ++ post) pre.length k = .ok (beVal w, pre.length + k) := by
  rw [readUintBE, if_pos (by simp [List.length_append]; omega)]
  congr 2
  rw [List.append_assoc, List.drop_left, ← hw, List.take_left]

theorem decodeNextByte_at (pre : List Nat) (b : Nat) (post : List Nat) :
    decodeNextByte (pre ++ b :: post) pre.length =
      .ok ((decodeMajorType b, decodeInfo b), pre.length + 1) := by
  rw [decodeNextByte]
  have hget : (pre ++ b :: post).get? pre.length = some b := by
    rw [List.get?_append_right le_rfl]
    simp
  rw [hget]

theorem decodeMajorType_pack (mt code : Nat) (hmt : mt < 8) (hcode : code < 32) :
    decodeMajorType (mt * 32 + code) = mt := by
  rw [decodeMajorType]
  omega

theorem decodeInfo_pack (mt code : Nat) (hcode : code < 32) :
    decodeInfo (mt * 32 + code) = code := by
  rw [decodeInfo]
  omega

/-- Reading back a header written by `encodeHeaderBytes` for a JS
`number` magnitude below 2^32: the major type round-trips and the
unsigned-integer decoder returns the magnitude as a JS `number`,
leaving the offset at the end of the header. -/
theorem decodeUnsigned_of_header_num (mt m : Nat) (hmt : mt < 8) (hm : m < 2 ^ 32)
    (pre post hb : List Nat)
    (henc : encodeHeaderBytes mt (.jsnum (m : Int)) = .ok hb) :
    ∃ info, decodeNextByte (pre ++ hb ++ post) pre.length =
        .ok ((mt, info), pre.length + 1) ∧
      decodeUnsignedInteger (pre ++ hb ++ post) (pre.length + 1) info =
        .ok (.unum m, pre.length + hb.length) := by
  rcases Nat.lt_or_ge m 24 with h23 | h23
  · have hb_eq : hb = [mt * 32 + m] := by
      rw [encodeHeaderBytes] at henc
      rw [if_pos (by simp [enumLe, TOKEN_VALUE_MAX]; omega)] at henc
      simpa [enumToNat] using henc.symm
    subst hb_eq
    refine ⟨m, ?_, ?_⟩
    · have := decodeNextByte_at pre (mt * 32 + m) post
      rw [decodeMajorType_pack mt m hmt (by omega), decodeInfo_pack mt m (by omega)] at this
      simpa using this
    · rw [decodeUnsignedInteger, if_pos (by omega)]
      simp
      all_goals omega
  · rcases Nat.lt_or_ge m 256 with h255 | h255
    · have hb_eq : hb = [mt * 32 + 24, m] := by
        rw [encodeHeaderBytes] at henc
        rw [if_neg (by simp [enumLe, TOKEN_VALUE_MAX]; omega),
          if_pos (by simp [enumLe, ONE_BYTE_MAX]; omega)] at henc
        have : m % 256 = m := Nat.mod_eq_of_lt h255
        simpa [enumToNat, this] using henc.symm
      subst hb_eq
      refine ⟨24, ?_, ?_⟩
      · have := decodeNextByte_at pre (mt * 32 + 24) ([m] ++ post)
        rw [decodeMajorType_pack mt 24 hmt (by omega), decodeInfo_pack mt 24 (by omega)] at this
        simpa using this
      · rw [decodeUnsignedInteger, if_neg (by omega)]
        have hsplit : pre ++ [mt * 32 + 24, m] ++ post =
            (pre ++ [mt * 32 + 24]) ++ [m] ++ post := by
          simp
        have hread := readUintBE_at (pre ++ [mt * 32 + 24]) [m] post 1 (by simp)
        rw [← hsplit] at hread
        have hlen : (pre ++ [mt * 32 + 24]).length = pre.length + 1 := by simp
        rw [hlen] at hread
        rw [hread]
        simp [beVal]
    · rcases Nat.lt_or_ge m 65536 with h2b | h2b
      · have hb_eq : hb = (mt * 32 + 25) :: beBytes 2 m := by
          rw [encodeHeaderBytes] at henc
          rw [if_neg (by simp [enumLe, TOKEN_VALUE_MAX]; omega),
            if_neg (by simp [enumLe, ONE_BYTE_MAX]; omega),
            if_pos (by simp [enumLe, TWO_BYTES_MAX]; omega)] at henc
          simpa [enumToNat] using henc.symm
        subst hb_eq
        refine ⟨25, ?_, ?_⟩
        · have := decodeNextByte_at pre (mt * 32 + 25) (beBytes 2 m ++ post)
          rw [decodeMajorType_pack mt 25 hmt (by omega),
            decodeInfo_pack mt 25 (by omega)] at this
          simpa using this
        · rw [decodeUnsignedInteger, if_neg (by omega)]
          have hsplit : pre ++ (mt * 32 + 25) :: beBytes 2 m ++ post =
              (pre ++ [mt * 32 + 25]) ++ beBytes 2 m ++ post := by
            simp
          have hread := readUintBE_at (pre ++ [mt * 32 + 25]) (beBytes 2 m) post 2
            (beBytes_length 2 m)
          rw [← hsplit] at hread
          have hlen : (pre ++ [mt * 32 + 25]).length = pre.length + 1 := by simp
          rw [hlen] at hread
          rw [hread, beVal_beBytes 2 m (by norm_num; omega)]
          simp [beBytes_length]
      · rcases Nat.lt_or_ge m 4294967296 with h4b | h4b
        · have hb_eq : hb = (mt * 32 + 26) :: beBytes 4 m := by
            rw [encodeHeaderBytes] at henc
            rw [if_neg (by simp [enumLe, TOKEN_VALUE_MAX]; omega),
              if_neg (by simp [enumLe, ONE_BYTE_MAX]; omega),
              if_neg (by simp [enumLe, TWO_BYTES_MAX]; omega),
              if_pos (by simp [enumLe, FOUR_BYTES_MAX]; omega)] at henc
            simpa [enumToNat] using henc.symm
          subst hb_eq
          refine ⟨26, ?_, ?_⟩
          · have := decodeNextByte_at pre (mt * 32 + 26) (beBytes 4 m ++ post)
            rw [decodeMajorType_pack mt 26 hmt (by omega),
              decodeInfo_pack mt 26 (by omega)] at this
            simpa using this
          · rw [decodeUnsignedInteger, if_neg (by omega)]
            have hsplit : pre ++ (mt * 32 + 26) :: beBytes 4 m ++ post =
                (pre ++ [mt * 32 + 26]) ++ beBytes 4 m ++ post := by
              simp
            have hread := readUintBE_at (pre ++ [mt * 32 + 26]) (beBytes 4 m) post 4
              (beBytes_length 4 m)
            rw [← hsplit] at hread
            have hlen : (pre ++ [mt * 32 + 26]).length = pre.length + 1 := by simp
            rw [hlen] at hread
            rw [hread, beVal_beBytes 4 m (by norm_num; omega)]
            simp [beBytes_length]
        · omega

/-- Reading back a header written by `encodeHeaderBytes` for a `bigint`
magnitude in the 8-byte range: the unsigned-integer decoder returns the
magnitude as a `bigint`. -/
theorem decodeUnsigned_of_header_big (mt m : Nat) (hmt : mt < 8) (hlo : 2 ^ 32 ≤ m)
    (hhi : m < 2 ^ 64) (pre post hb : List Nat)
    (henc : encodeHeaderBytes mt (.jsbig (m : Int)) = .ok hb) :
    decodeNextByte (pre ++ hb ++ post) pre.length = .ok ((mt, 27), pre.length + 1) ∧
      decodeUnsignedInteger (pre ++ hb ++ post) (pre.length + 1) 27 =
        .ok (.ubig m, pre.length + hb.length) := by
  have hb_eq : hb = (mt * 32 + 27) :: beBytes 8 m := by
    rw [encodeHeaderBytes] at henc
    rw [if_neg (by simp [enumLe, TOKEN_VALUE_MAX]; omega),
      if_neg (by simp [enumLe, ONE_BYTE_MAX]; omega),
      if_neg (by simp [enumLe, TWO_BYTES_MAX]; omega),
      if_neg (by simp [enumLe, FOUR_BYTES_MAX]; omega),
      if_pos (by simp [enumLe, EIGHT_BYTES_MAX]; omega)] at henc
    simpa [enumToNat] using henc.symm
  subst hb_eq
  constructor
  · have := decodeNextByte_at pre (mt * 32 + 27) (beBytes 8 m ++ post)
    rw [decodeMajorType_pack mt 27 hmt (by omega), decodeInfo_pack mt 27 (by omega)] at this
    simpa using this
  · rw [decodeUnsignedInteger, if_neg (by omega)]
    have hsplit : pre ++ (mt * 32 + 27) :: beBytes 8 m ++ post =
        (pre ++ [mt * 32 + 27]) ++ beBytes 8 m ++ post := by
      simp
    have hread := readUintBE_at (pre ++ [mt * 32 + 27]) (beBytes 8 m) post 8
      (beBytes_length 8 m)
    rw [← hsplit] at hread
    have hlen : (pre ++ [mt * 32 + 27]).length = pre.length + 1 := by simp
    rw [hlen] at hread
    rw [hread, beVal_beBytes 8 m (by norm_num; omega)]
    simp [beBytes_length]

/-! ## Helper lemmas: depth and fuel -/

theorem vdepth_pos (v : CborValue) : 1 ≤ vdepth v := by
  cases v <;> simp [vdepth]

theorem vdepth_mem_le {v : CborValue} {vs : List CborValue} (h : v ∈ vs) :
    vdepth v ≤ ldepth vs := by
  induction vs with
  | nil => cases h
  | cons w t ih =>
    rcases List.mem_cons.mp h with h | h
    · subst h
      simp [ldepth]
    · have := ih h
      simp only [ldepth]
      omega

theorem vdepth_entry_le {kv : String × CborValue} {kvs : List (String × CborValue)}
    (h : kv ∈ kvs) : vdepth kv.2 ≤ edepth kvs := by
  induction kvs with
  | nil => cases h
  | cons w t ih =>
    rcases List.mem_cons.mp h with h | h
    · subst h
      obtain ⟨a, b⟩ := kv
      simp [edepth]
    · have := ih h
      obtain ⟨a, b⟩ := w
      simp only [edepth]
      omega

theorem encodeListBytes_congr (e1 e2 : CborValue → Except JsErr (List Nat))
    (vs : List CborValue) (h : ∀ v ∈ vs, e1 v = e2 v) :
    encodeListBytes e1 vs = encodeListBytes e2 vs := by
  induction vs with
  | nil => rfl
  | cons v t ih =>
    rw [encodeListBytes, encodeListBytes, h v (by simp),
      ih (fun w hw => h w (by simp [hw]))]

theorem encodeEntriesBytes_congr (e1 e2 : CborValue → Except JsErr (List Nat))
    (kvs : List (String × CborValue)) (h : ∀ kv ∈ kvs, e1 kv.2 = e2 kv.2) :
    encodeEntriesBytes e1 kvs = encodeEntriesBytes e2 kvs := by
  induction kvs with
  | nil => rfl
  | cons kv t ih =>
    obtain ⟨k, v⟩ := kv
    rw [encodeEntriesBytes, encodeEntriesBytes, h (k, v) (by simp),
      ih (fun w hw => h w (by simp [hw]))]

/-- The byte output of the encoder does not depend on the fuel, as long
as the fuel covers the value's nesting depth. -/
theorem encodeItemBytes_mono (v : CborValue) :
    ∀ f1 f2, vdepth v ≤ f1 → vdepth v ≤ f2 → encodeItemBytes f1 v = encodeItemBytes f2 v := by
  induction v using cborInduction with
  | harr vs ih =>
    intro f1 f2 h1 h2
    have hd : 1 + ldepth vs ≤ f1 := by simpa [vdepth] using h1
    have hd2 : 1 + ldepth vs ≤ f2 := by simpa [vdepth] using h2
    obtain ⟨g1, rfl⟩ : ∃ g, f1 = g + 1 := ⟨f1 - 1, by omega⟩
    obtain ⟨g2, rfl⟩ : ∃ g, f2 = g + 1 := ⟨f2 - 1, by omega⟩
    rw [encodeItemBytes, encodeItemBytes,
      encodeListBytes_congr (encodeItemBytes g1) (encodeItemBytes g2) vs
        (fun v hv => ih v hv g1 g2 (le_trans (vdepth_mem_le hv) (by omega))
          (le_trans (vdepth_mem_le hv) (by omega)))]
  | hmap kvs ih =>
    intro f1 f2 h1 h2
    have hd : 1 + edepth kvs ≤ f1 := by simpa [vdepth] using h1
    have hd2 : 1 + edepth kvs ≤ f2 := by simpa [vdepth] using h2
    obtain ⟨g1, rfl⟩ : ∃ g, f1 = g + 1 := ⟨f1 - 1, by omega⟩
    obtain ⟨g2, rfl⟩ : ∃ g, f2 = g + 1 := ⟨f2 - 1, by omega⟩
    rw [encodeItemBytes, encodeItemBytes,
      encodeEntriesBytes_congr (encodeItemBytes g1) (encodeItemBytes g2) kvs
        (fun kv hkv => ih kv hkv g1 g2 (le_trans (vdepth_entry_le hkv) (by omega))
          (le_trans (vdepth_entry_le hkv) (by omega)))]
  | hnum n =>
    intro f1 f2 h1 h2
    obtain ⟨g1, rfl⟩ : ∃ g, f1 = g + 1 := ⟨f1 - 1, by have := vdepth_pos (.num n); omega⟩
    obtain ⟨g2, rfl⟩ : ∃ g, f2 = g + 1 := ⟨f2 - 1, by have := vdepth_pos (.num n); omega⟩
    rfl
  | hbig n =>
    intro f1 f2 h1 h2
    obtain ⟨g1, rfl⟩ : ∃ g, f1 = g + 1 := ⟨f1 - 1, by have := vdepth_pos (.big n); omega⟩
    obtain ⟨g2, rfl⟩ : ∃ g, f2 = g + 1 := ⟨f2 - 1, by have := vdepth_pos (.big n); omega⟩
    rfl
  | hinfy b =>
    intro f1 f2 h1 h2
    obtain ⟨g1, rfl⟩ : ∃ g, f1 = g + 1 := ⟨f1 - 1, by have := vdepth_pos (.infy b); omega⟩
    obtain ⟨g2, rfl⟩ : ∃ g, f2 = g + 1 := ⟨f2 - 1, by have := vdepth_pos (.infy b); omega⟩
    rfl
  | hstr s =>
    intro f1 f2 h1 h2
    obtain ⟨g1, rfl⟩ : ∃ g, f1 = g + 1 := ⟨f1 - 1, by have := vdepth_pos (.str s); omega⟩
    obtain ⟨g2, rfl⟩ : ∃ g, f2 = g + 1 := ⟨f2 - 1, by have := vdepth_pos (.str s); omega⟩
    rfl
  | hbytes b =>
    intro f1 f2 h1 h2
    obtain ⟨g1, rfl⟩ : ∃ g, f1 = g + 1 := ⟨f1 - 1, by have := vdepth_pos (.bytes b); omega⟩
    obtain ⟨g2, rfl⟩ : ∃ g, f2 = g + 1 := ⟨f2 - 1, by have := vdepth_pos (.bytes b); omega⟩
    rfl
  | hbool b =>
    intro f1 f2 h1 h2
    obtain ⟨g1, rfl⟩ : ∃ g, f1 = g + 1 := ⟨f1 - 1, by have := vdepth_pos (.bool b); omega⟩
    obtain ⟨g2, rfl⟩ : ∃ g, f2 = g + 1 := ⟨f2 - 1, by have := vdepth_pos (.bool b); omega⟩
    rfl
  | hnull =>
    intro f1 f2 h1 h2
    obtain ⟨g1, rfl⟩ : ∃ g, f1 = g + 1 := ⟨f1 - 1, by have := vdepth_pos .null; omega⟩
    obtain ⟨g2, rfl⟩ : ∃ g, f2 = g + 1 := ⟨f2 - 1, by have := vdepth_pos .null; omega⟩
    rfl
  | hundef =>
    intro f1 f2 h1 h2
    obtain ⟨g1, rfl⟩ : ∃ g, f1 = g + 1 := ⟨f1 - 1, by have := vdepth_pos .undef; omega⟩
    obtain ⟨g2, rfl⟩ : ∃ g, f2 = g + 1 := ⟨f2 - 1, by have := vdepth_pos .undef; omega⟩
    rfl
  | hstop =>
    intro f1 f2 h1 h2
    obtain ⟨g1, rfl⟩ : ∃ g, f1 = g + 1 := ⟨f1 - 1, by have := vdepth_pos .stopCode; omega⟩
    obtain ⟨g2, rfl⟩ : ∃ g, f2 = g + 1 := ⟨f2 - 1, by have := vdepth_pos .stopCode; omega⟩
    rfl

/-- `encode` equals the fuelled encoder at any sufficient fuel. -/
theorem encode_eq_itemBytes (v : CborValue) (f : Nat) (h : vdepth v ≤ f) :
    encode v = encodeItemBytes f v := by
  rw [encode]
  exact encodeItemBytes_mono v _ _ le_rfl h

/-! ## Helper lemmas: byte-run and text round-trip -/

/-- Reading back a length-prefixed byte run emitted by `encodeBytes`. -/
theorem decodeByteString_of_encoded (mt : Nat) (hmt : mt < 8) (payload : List Nat)
    (pre post bb : List Nat) (hlen : payload.length < 2 ^ 32)
    (henc : encodeBytesBytes mt payload = .ok bb) :
    ∃ info, decodeNextByte (pre ++ bb ++ post) pre.length = .ok ((mt, info), pre.length + 1) ∧
      decodeByteString (pre ++ bb ++ post) (pre.length + 1) info =
        .ok (payload, pre.length + bb.length) := by
  rw [encodeBytesBytes] at henc
  rcases hh : encodeHeaderBytes mt (.jsnum payload.length) with e | hb
  · rw [hh] at henc
    cases henc
  · rw [hh] at henc
    have hbb : bb = hb ++ payload := by
      cases henc
      rfl
    subst hbb
    obtain ⟨info, hnext, hunsigned⟩ :=
      decodeUnsigned_of_header_num mt payload.length hmt hlen pre (payload ++ post) hb hh
    refine ⟨info, ?_, ?_⟩
    · have heq : pre ++ hb ++ (payload ++ post) = pre ++ (hb ++ payload) ++ post := by
        simp
      rw [heq] at hnext
      exact hnext
    · rw [decodeByteString]
      have heq : pre ++ hb ++ (payload ++ post) = pre ++ (hb ++ payload) ++ post := by
        simp
      rw [heq] at hunsigned
      rw [hunsigned]
      have h53 : ¬ (payload.length > 2 ^ 53 - 1) := by omega
      have hdrop : ((pre ++ (hb ++ payload) ++ post).drop (pre.length + hb.length)) =
          payload ++ post := by
        have hassoc : pre ++ (hb ++ payload) ++ post = (pre ++ hb) ++ (payload ++ post) := by
          simp
        rw [hassoc]
        have hplen : (pre ++ hb).length = pre.length + hb.length := by simp
        rw [← hplen, List.drop_left]
      simp only [if_neg h53, hdrop, List.take_left, List.length_append]
      rw [Nat.add_assoc]

/-- Reading back a text string emitted by `encodeTextString`. -/
theorem decodeTextString_of_encoded (k : String) (pre post kb : List Nat)
    (hlen : (utf8Encode k).length < 2 ^ 32) (henc : encodeTextStringBytes k = .ok kb) :
    ∃ info, decodeNextByte (pre ++ kb ++ post) pre.length = .ok ((3, info), pre.length + 1) ∧
      decodeTextString (pre ++ kb ++ post) (pre.length + 1) info =
        .ok (k, pre.length + kb.length) := by
  rw [encodeTextStringBytes] at henc
  obtain ⟨info, hnext, hbytes⟩ :=
    decodeByteString_of_encoded 3 (by omega) (utf8Encode k) pre post kb hlen henc
  refine ⟨info, hnext, ?_⟩
  rw [decodeTextString, hbytes]
  simp only [utf8DecodeString_encode]

/-! ## Helper lemmas: map keys -/

theorem jsObjSet_append (acc : List (String × CborValue)) (k : String) (v : CborValue)
    (h : k ∉ acc.map Prod.fst) : jsObjSet acc k v = acc ++ [(k, v)] := by
  induction acc with
  | nil => rfl
  | cons p t ih =>
    obtain ⟨k0, v0⟩ := p
    simp only [List.map_cons, List.mem_cons, not_or] at h
    rw [jsObjSet, if_neg (fun hk => h.1 (hk.symm)), ih h.2]
    rfl

theorem noDupKeys_iff (l : List (String × CborValue)) :
    noDupKeys l = true ↔ (l.map Prod.fst).Nodup := by
  induction l with
  | nil => simp [noDupKeys]
  | cons p t ih =>
    obtain ⟨k0, v0⟩ := p
    rw [noDupKeys]
    simp only [Bool.and_eq_true, Bool.not_eq_true', List.map_cons, List.nodup_cons, ih]
    constructor
    · rintro ⟨hc, hd⟩
      refine ⟨?_, hd⟩
      intro hmem
      simp [List.contains, List.elem_eq_mem, hmem] at hc
    · rintro ⟨hm, hd⟩
      refine ⟨?_, hd⟩
      simp [List.contains, List.elem_eq_mem, hm]

/-! ## Helper lemmas: container loops on encoded input -/

/-- The definite-length array loop applied to the concatenated encodings
of the elements decodes exactly those elements. -/
theorem decodeArrayElems_of_encoded (vs : List CborValue) :
    ∀ (pre post lb : List Nat) (fuel : Nat),
      canonicalList vs = true →
      encodeListBytes (encodeItemBytes fuel) vs = .ok lb →
      ldepth vs ≤ fuel →
      (∀ v ∈ vs, DecOK v) →
      decodeArrayElems (decodeItem fuel none (pre ++ lb ++ post)) none vs.length pre.length =
        .ok (vs, pre.length + lb.length) := by
  induction vs with
  | nil =>
    intro pre post lb fuel hc henc hd hdec
    rw [encodeListBytes] at henc
    cases henc
    simp [decodeArrayElems]
  | cons v t ih =>
    intro pre post lb fuel hc henc hd hdec
    rw [encodeListBytes] at henc
    rcases hv : encodeItemBytes fuel v with e | hb
    · rw [hv] at henc
      cases henc
    · rw [hv] at henc
      rcases ht : encodeListBytes (encodeItemBytes fuel) t with e | tb
      · rw [ht] at henc
        cases henc
      · rw [ht] at henc
        have hlb : lb = hb ++ tb := by
          cases henc
          rfl
        subst hlb
        simp only [canonicalList, Bool.and_eq_true] at hc
        have hvd : vdepth v ≤ fuel := le_trans (vdepth_mem_le (by simp)) hd
        have henc_v : encode v = .ok hb := by
          rw [encode_eq_itemBytes v fuel hvd]
          exact hv
        have hstep := hdec v (by simp) pre (tb ++ post) hb fuel hc.1 henc_v hvd
        have hldt : ldepth t ≤ fuel := by
          have : ldepth (v :: t) ≤ fuel := hd
          simp only [ldepth] at this
          omega
        have ihh := ih (pre ++ hb) post tb fuel hc.2 ht hldt
          (fun w hw => hdec w (by simp [hw]))
        simp only [List.append_assoc, List.length_append] at hstep ihh ⊢
        rw [List.length_cons, decodeArrayElems, hstep]
        simp only [ihh, applyReviver]
        rw [Nat.add_assoc]

/-- The definite-length map loop applied to the concatenated encodings
of the entries decodes exactly those entries, appended to the
accumulator object (keys being globally distinct). -/
theorem decodeMapEntries_of_encoded (kvs : List (String × CborValue)) :
    ∀ (pre post eb : List Nat) (fuel : Nat) (acc : List (String × CborValue)),
      canonicalEntries kvs = true →
      encodeEntriesBytes (encodeItemBytes fuel) kvs = .ok eb →
      edepth kvs ≤ fuel →
      (∀ kv ∈ kvs, DecOK kv.2) →
      ((acc ++ kvs).map Prod.fst).Nodup →
      decodeMapEntries (decodeItem fuel none (pre ++ eb ++ post)) none (pre ++ eb ++ post)
        kvs.length pre.length acc = .ok (acc ++ kvs, pre.length + eb.length) := by
  induction kvs with
  | nil =>
    intro pre post eb fuel acc hc henc hd hdec hnodup
    rw [encodeEntriesBytes] at henc
    cases henc
    simp [decodeMapEntries]
  | cons kv t ih =>
    obtain ⟨k, v⟩ := kv
    intro pre post eb fuel acc hc henc hd hdec hnodup
    rw [encodeEntriesBytes] at henc
    rcases hk : encodeTextStringBytes k with e | kb
    · rw [hk] at henc
      cases henc
    · rw [hk] at henc
      rcases hv : encodeItemBytes fuel v with e | vb
      · rw [hv] at henc
        cases henc
      · rw [hv] at henc
        rcases ht : encodeEntriesBytes (encodeItemBytes fuel) t with e | tb
        · rw [ht] at henc
          cases henc
        · rw [ht] at henc
          have heb : eb = kb ++ vb ++ tb := by
            cases henc
            rfl
          subst heb
          simp only [canonicalEntries, Bool.and_eq_true, decide_eq_true_eq] at hc
          have hvd : vdepth v ≤ fuel := by
            have := @vdepth_entry_le (k, v) ((k, v) :: t) (by simp)
            simp only at this
            omega
          have henc_v : encode v = .ok vb := by
            rw [encode_eq_itemBytes v fuel hvd]
            exact hv
          obtain ⟨info, hnext, htext⟩ :=
            decodeTextString_of_encoded k pre (vb ++ tb ++ post) kb hc.1.1 hk
          have hstep := hdec (k, v) (by simp) (pre ++ kb) (tb ++ post) vb fuel hc.1.2
            henc_v hvd
          have hedt : edepth t ≤ fuel := by
            have : edepth ((k, v) :: t) ≤ fuel := hd
            simp only [edepth] at this
            omega
          have hknotin : k ∉ acc.map Prod.fst := by
            intro hmem
            have hn := hnodup
            simp only [List.map_append, List.nodup_append] at hn
            exact hn.2.2 hmem (by simp)
          have hnodup2 : (((acc ++ [(k, v)]) ++ t).map Prod.fst).Nodup := by
            have : (acc ++ [(k, v)]) ++ t = acc ++ (k, v) :: t := by simp
            rw [this]
            exact hnodup
          have ihh := ih ((pre ++ kb) ++ vb) post tb fuel (acc ++ [(k, v)]) hc.2 ht hedt
            (fun w hw => hdec w (by simp [hw])) hnodup2
          simp only [List.append_assoc, List.length_append, Nat.add_assoc] at hnext htext hstep ihh ⊢
          rw [List.length_cons, decodeMapEntries, hnext]
          simp only [ne_eq, not_true_eq_false, Bool.false_eq_true, if_false, htext]
          simp only [hstep, applyReviver]
          rw [jsObjSet_append acc k v hknotin]
          simp only [ihh]
          simp [Nat.add_assoc]

/-- Round-trip of a single encoded value at any position of the input:
the decoder (with sufficient fuel and no reviver) returns the value and
consumes exactly its bytes. -/
theorem decodeItem_of_encoded : ∀ v, DecOK v := by
  refine cborInduction ?_ ?_ ?_ ?_ ?_ ?_ ?_ ?_ ?_ ?_ ?_
  · -- num
    intro n pre post eb fuel hcan henc hfd
    simp only [canonical, Bool.and_eq_true, decide_eq_true_eq] at hcan
    have henc' : encodeItemBytes fuel (.num n) = .ok eb := by
      rw [← encode_eq_itemBytes _ fuel hfd]
      exact henc
    obtain ⟨g, rfl⟩ : ∃ g, fuel = g + 1 := ⟨fuel - 1, by have := vdepth_pos (.num n); omega⟩
    rw [encodeItemBytes, encodeNumberBytes] at henc'
    by_cases hn : 0 ≤ n
    · obtain ⟨m, rfl⟩ : ∃ m : Nat, n = (m : Int) := ⟨n.toNat, (Int.toNat_of_nonneg hn).symm⟩
      rw [if_pos hn] at henc'
      obtain ⟨info, hnext, hu⟩ := decodeUnsigned_of_header_num 0 m (by omega)
        (by exact_mod_cast hcan.2) pre post eb henc'
      rw [decodeItem]
      simp only [hnext, hu, uNumToValue]
    · rw [if_neg hn] at henc'
      obtain ⟨m, hm⟩ : ∃ m : Nat, -1 - n = (m : Int) :=
        ⟨(-1 - n).toNat, (Int.toNat_of_nonneg (by omega)).symm⟩
      rw [hm] at henc'
      have hmlt : m < 2 ^ 32 := by
        have h1 : -(2 ^ 32 : Int) ≤ n := hcan.1
        omega
      obtain ⟨info, hnext, hu⟩ := decodeUnsigned_of_header_num 1 m (by omega) hmlt
        pre post eb henc'
      rw [decodeItem]
      simp only [hnext, hu, uNumToNegValue]
      have : -1 - (m : Int) = n := by omega
      rw [this]
  · -- big
    intro n pre post eb fuel hcan henc hfd
    simp only [canonical, Bool.and_eq_true, Bool.or_eq_true, decide_eq_true_eq] at hcan
    have henc' : encodeItemBytes fuel (.big n) = .ok eb := by
      rw [← encode_eq_itemBytes _ fuel hfd]
      exact henc
    obtain ⟨g, rfl⟩ : ∃ g, fuel = g + 1 := ⟨fuel - 1, by have := vdepth_pos (.big n); omega⟩
    rw [encodeItemBytes, encodeNumberBytes] at henc'
    by_cases hn : 0 ≤ n
    · obtain ⟨m, rfl⟩ : ∃ m : Nat, n = (m : Int) := ⟨n.toNat, (Int.toNat_of_nonneg hn).symm⟩
      rw [if_pos hn] at henc'
      have hrange : 2 ^ 32 ≤ m ∧ m < 2 ^ 64 := by
        rcases hcan with ⟨h1, h2⟩ | ⟨h1, h2⟩
        · constructor <;> [exact_mod_cast h1; omega]
        · omega
      obtain ⟨hnext, hu⟩ := decodeUnsigned_of_header_big 0 m (by omega) hrange.1 hrange.2
        pre post eb henc'
      rw [decodeItem]
      simp only [hnext, hu, uNumToValue]
    · rw [if_neg hn] at henc'
      obtain ⟨m, hm⟩ : ∃ m : Nat, -1 - n = (m : Int) :=
        ⟨(-1 - n).toNat, (Int.toNat_of_nonneg (by omega)).symm⟩
      rw [hm] at henc'
      have hrange : 2 ^ 32 ≤ m ∧ m < 2 ^ 64 := by
        rcases hcan with ⟨h1, h2⟩ | ⟨h1, h2⟩
        · omega
        · omega
      obtain ⟨hnext, hu⟩ := decodeUnsigned_of_header_big 1 m (by omega) hrange.1 hrange.2
        pre post eb henc'
      rw [decodeItem]
      simp only [hnext, hu, uNumToNegValue]
      have : -1 - (m : Int) = n := by omega
      rw [this]
  · -- infy: not canonical
    intro b pre post eb fuel hcan henc hfd
    simp [canonical] at hcan
  · -- str
    intro s pre post eb fuel hcan henc hfd
    simp only [canonical, decide_eq_true_eq] at hcan
    have henc' : encodeItemBytes fuel (.str s) = .ok eb := by
      rw [← encode_eq_itemBytes _ fuel hfd]
      exact henc
    obtain ⟨g, rfl⟩ : ∃ g, fuel = g + 1 := ⟨fuel - 1, by have := vdepth_pos (.str s); omega⟩
    rw [encodeItemBytes] at henc'
    obtain ⟨info, hnext, htext⟩ := decodeTextString_of_encoded s pre post eb hcan henc'
    rw [decodeItem]
    simp only [hnext, htext]
  · -- bytes
    intro b pre post eb fuel hcan henc hfd
    simp only [canonical, Bool.and_eq_true, decide_eq_true_eq] at hcan
    have henc' : encodeItemBytes fuel (.bytes b) = .ok eb := by
      rw [← encode_eq_itemBytes _ fuel hfd]
      exact henc
    obtain ⟨g, rfl⟩ : ∃ g, fuel = g + 1 := ⟨fuel - 1, by have := vdepth_pos (.bytes b); omega⟩
    rw [encodeItemBytes] at henc'
    obtain ⟨info, hnext, hbytes⟩ := decodeByteString_of_encoded 2 (by omega) b pre post eb
      hcan.1 henc'
    rw [decodeItem]
    simp only [hnext, hbytes]
  · -- arr
    intro vs ih pre post eb fuel hcan henc hfd
    simp only [canonical, Bool.and_eq_true, decide_eq_true_eq] at hcan
    have henc' : encodeItemBytes fuel (.arr vs) = .ok eb := by
      rw [← encode_eq_itemBytes _ fuel hfd]
      exact henc
    obtain ⟨g, rfl⟩ : ∃ g, fuel = g + 1 := ⟨fuel - 1, by have := vdepth_pos (.arr vs); omega⟩
    rw [encodeItemBytes] at henc'
    rcases hh : encodeHeaderBytes 4 (.jsnum vs.length) with e | hb
    · rw [hh] at henc'
      cases henc'
    · rw [hh] at henc'
      rcases hbody : encodeListBytes (encodeItemBytes g) vs with e | body
      · rw [hbody] at henc'
        cases henc'
      · rw [hbody] at henc'
        have heb : eb = hb ++ body := by
          cases henc'
          rfl
        subst heb
        obtain ⟨info, hnext, hu⟩ := decodeUnsigned_of_header_num 4 vs.length (by omega)
          hcan.1 pre (body ++ post) hb hh
        have hld : ldepth vs ≤ g := by
          have : vdepth (.arr vs) ≤ g + 1 := hfd
          simp only [vdepth] at this
          omega
        have helems := decodeArrayElems_of_encoded vs (pre ++ hb) post body g hcan.2 hbody
          hld ih
        simp only [List.append_assoc, List.length_append, Nat.add_assoc] at hnext hu helems ⊢
        rw [decodeItem]
        simp only [hnext, decodeArray, hu, helems]
  · -- map
    intro kvs ih pre post eb fuel hcan henc hfd
    simp only [canonical, Bool.and_eq_true, decide_eq_true_eq] at hcan
    have henc' : encodeItemBytes fuel (.map kvs) = .ok eb := by
      rw [← encode_eq_itemBytes _ fuel hfd]
      exact henc
    obtain ⟨g, rfl⟩ : ∃ g, fuel = g + 1 := ⟨fuel - 1, by have := vdepth_pos (.map kvs); omega⟩
    rw [encodeItemBytes] at henc'
    rcases hh : encodeHeaderBytes 5 (.jsnum kvs.length) with e | hb
    · rw [hh] at henc'
      cases henc'
    · rw [hh] at henc'
      rcases hbody : encodeEntriesBytes (encodeItemBytes g) kvs with e | body
      · rw [hbody] at henc'
        cases henc'
      · rw [hbody] at henc'
        have heb : eb = hb ++ body := by
          cases henc'
          rfl
        subst heb
        obtain ⟨info, hnext, hu⟩ := decodeUnsigned_of_header_num 5 kvs.length (by omega)
          hcan.1.1 pre (body ++ post) hb hh
        have hed : edepth kvs ≤ g := by
          have : vdepth (.map kvs) ≤ g + 1 := hfd
          simp only [vdepth] at this
          omega
        have hnodup : (([] ++ kvs).map Prod.fst).Nodup := by
          rw [List.nil_append]
          exact (noDupKeys_iff kvs).mp hcan.1.2
        have hentries := decodeMapEntries_of_encoded kvs (pre ++ hb) post body g []
          hcan.2 hbody hed ih hnodup
        simp only [List.append_assoc, List.length_append, Nat.add_assoc, List.nil_append]
          at hnext hu hentries ⊢
        rw [decodeItem]
        simp only [hnext, decodeMap, hu, hentries]
  · -- bool
    intro b pre post eb fuel hcan henc hfd
    have henc' : encodeItemBytes fuel (.bool b) = .ok eb := by
      rw [← encode_eq_itemBytes _ fuel hfd]
      exact henc
    obtain ⟨g, rfl⟩ : ∃ g, fuel = g + 1 := ⟨fuel - 1, by have := vdepth_pos (.bool b); omega⟩
    cases b
    · have heb : eb = [0xF4] := by
        rw [encodeItemBytes] at henc'
        have : encodeHeaderBytes 7 (.jsnum (mapSimple (.bool false))) = .ok [0xF4] := rfl
        rw [this] at henc'
        cases henc'
        rfl
      subst heb
      have hnext := decodeNextByte_at pre 0xF4 post
      rw [decodeItem]
      simp only [List.append_assoc, List.singleton_append]
      simp only [hnext]
      rfl
    · have heb : eb = [0xF5] := by
        rw [encodeItemBytes] at henc'
        have : encodeHeaderBytes 7 (.jsnum (mapSimple (.bool true))) = .ok [0xF5] := rfl
        rw [this] at henc'
        cases henc'
        rfl
      subst heb
      have hnext := decodeNextByte_at pre 0xF5 post
      rw [decodeItem]
      simp only [List.append_assoc, List.singleton_append]
      simp only [hnext]
      rfl
  · -- null
    intro pre post eb fuel hcan henc hfd
    have henc' : encodeItemBytes fuel .null = .ok eb := by
      rw [← encode_eq_itemBytes _ fuel hfd]
      exact henc
    obtain ⟨g, rfl⟩ : ∃ g, fuel = g + 1 := ⟨fuel - 1, by have := vdepth_pos .null; omega⟩
    have heb : eb = [0xF6] := by
      rw [encodeItemBytes] at henc'
      have : encodeHeaderBytes 7 (.jsnum (mapSimple .null)) = .ok [0xF6] := rfl
      rw [this] at henc'
      cases henc'
      rfl
    subst heb
    have hnext := decodeNextByte_at pre 0xF6 post
    rw [decodeItem]
    simp only [List.append_assoc, List.singleton_append]
    simp only [hnext]
    rfl
  · -- undef
    intro pre post eb fuel hcan henc hfd
    have henc' : encodeItemBytes fuel .undef = .ok eb := by
      rw [← encode_eq_itemBytes _ fuel hfd]
      exact henc
    obtain ⟨g, rfl⟩ : ∃ g, fuel = g + 1 := ⟨fuel - 1, by have := vdepth_pos .undef; omega⟩
    have heb : eb = [0xF7] := by
      rw [encodeItemBytes] at henc'
      have : encodeHeaderBytes 7 (.jsnum (mapSimple .undef)) = .ok [0xF7] := rfl
      rw [this] at henc'
      cases henc'
      rfl
    subst heb
    have hnext := decodeNextByte_at pre 0xF7 post
    rw [decodeItem]
    simp only [List.append_assoc, List.singleton_append]
    simp only [hnext]
    rfl
  · -- stopCode: not canonical
    intro pre post eb fuel hcan henc hfd
    simp [canonical] at hcan

/-! ## Helper lemmas: encoder success and output size -/

/-- Every header the cascade emits starts with its one type byte. -/
theorem encodeHeaderBytes_pos (mt : Nat) (u : ENum) (hb : List Nat)
    (h : encodeHeaderBytes mt u = .ok hb) : 1 ≤ hb.length := by
  rw [encodeHeaderBytes] at h
  split at h
  · cases h
    simp
  · split at h
    · cases h
      simp
    · split at h
      · cases h
        simp
      · split at h
        · cases h
          simp
        · split at h
          · cases h
            simp
          · cases h

/-- The header cascade succeeds on every value within the 64-bit range. -/
theorem encodeHeaderBytes_isOk (mt : Nat) (u : ENum)
    (h : enumLe u EIGHT_BYTES_MAX = true) :
    ∃ hb, encodeHeaderBytes mt u = .ok hb := by
  rw [encodeHeaderBytes]
  by_cases h1 : enumLe u TOKEN_VALUE_MAX = true
  · rw [if_pos h1]
    exact ⟨_, rfl⟩
  · rw [if_neg h1]
    by_cases h2 : enumLe u ONE_BYTE_MAX = true
    · rw [if_pos h2]
      exact ⟨_, rfl⟩
    · rw [if_neg h2]
      by_cases h3 : enumLe u TWO_BYTES_MAX = true
      · rw [if_pos h3]
        exact ⟨_, rfl⟩
      · rw [if_neg h3]
        by_cases h4 : enumLe u FOUR_BYTES_MAX = true
        · rw [if_pos h4]
          exact ⟨_, rfl⟩
        · rw [if_neg h4]
          rw [if_pos h]
          exact ⟨_, rfl⟩

theorem ldepth_le_of_encodeList (fuel : Nat) (vs : List CborValue) :
    ∀ body : List Nat,
      (∀ v ∈ vs, ∀ eb, encodeItemBytes fuel v = .ok eb → vdepth v ≤ eb.length) →
      encodeListBytes (encodeItemBytes fuel) vs = .ok body →
      ldepth vs ≤ body.length := by
  induction vs with
  | nil =>
    intro body hdec henc
    simp [ldepth]
  | cons v t ih =>
    intro body hdec henc
    rw [encodeListBytes] at henc
    rcases hv : encodeItemBytes fuel v with e | hb
    · rw [hv] at henc
      cases henc
    · rw [hv] at henc
      rcases ht : encodeListBytes (encodeItemBytes fuel) t with e | tb
      · rw [ht] at henc
        cases henc
      · rw [ht] at henc
        cases henc
        have h1 := hdec v (by simp) hb hv
        have h2 := ih tb (fun w hw eb he => hdec w (by simp [hw]) eb he) ht
        simp only [ldepth, List.length_append]
        omega

theorem edepth_le_of_encodeEntries (fuel : Nat) (kvs : List (String × CborValue)) :
    ∀ body : List Nat,
      (∀ kv ∈ kvs, ∀ eb, encodeItemBytes fuel kv.2 = .ok eb → vdepth kv.2 ≤ eb.length) →
      encodeEntriesBytes (encodeItemBytes fuel) kvs = .ok body →
      edepth kvs ≤ body.length := by
  induction kvs with
  | nil =>
    intro body hdec henc
    simp [edepth]
  | cons kv t ih =>
    obtain ⟨k, v⟩ := kv
    intro body hdec henc
    rw [encodeEntriesBytes] at henc
    rcases hk : encodeTextStringBytes k with e | kb
    · rw [hk] at henc
      cases henc
    · rw [hk] at henc
      rcases hv : encodeItemBytes fuel v with e | vb
      · rw [hv] at henc
        cases henc
      · rw [hv] at henc
        rcases ht : encodeEntriesBytes (encodeItemBytes fuel) t with e | tb
        · rw [ht] at henc
          cases henc
        · rw [ht] at henc
          cases henc
          have h1 : vdepth v ≤ vb.length := hdec (k, v) (by simp) vb hv
          have h2 := ih tb (fun w hw eb he => hdec w (by simp [hw]) eb he) ht
          simp only [edepth, List.length_append]
          omega

/-- A successful encoding is at least as long as the value's nesting
depth — so feeding the decoder `input length + 1` fuel always covers the
depth of what was encoded. -/
theorem vdepth_le_encLength :
    ∀ v : CborValue, ∀ (fuel : Nat) (eb : List Nat),
      encodeItemBytes fuel v = .ok eb → vdepth v ≤ eb.length := by
  refine cborInduction ?_ ?_ ?_ ?_ ?_ ?_ ?_ ?_ ?_ ?_ ?_
  · intro n fuel eb henc
    cases fuel with
    | zero =>
      rw [encodeItemBytes] at henc
      cases henc
    | succ g =>
      rw [encodeItemBytes, encodeNumberBytes] at henc
      simp only [vdepth]
      split at henc
      · exact encodeHeaderBytes_pos _ _ _ henc
      · exact encodeHeaderBytes_pos _ _ _ henc
  · intro n fuel eb henc
    cases fuel with
    | zero =>
      rw [encodeItemBytes] at henc
      cases henc
    | succ g =>
      rw [encodeItemBytes, encodeNumberBytes] at henc
      simp only [vdepth]
      split at henc
      · exact encodeHeaderBytes_pos _ _ _ henc
      · exact encodeHeaderBytes_pos _ _ _ henc
  · intro b fuel eb henc
    cases fuel with
    | zero =>
      rw [encodeItemBytes] at henc
      cases henc
    | succ g =>
      rw [encodeItemBytes] at henc
      simp only [vdepth]
      cases b
      · exact encodeHeaderBytes_pos _ _ _ henc
      · exact encodeHeaderBytes_pos _ _ _ henc
  · intro s fuel eb henc
    cases fuel with
    | zero =>
      rw [encodeItemBytes] at henc
      cases henc
    | succ g =>
      rw [encodeItemBytes, encodeTextStringBytes, encodeBytesBytes] at henc
      simp only [vdepth]
      rcases hh : encodeHeaderBytes 3 (.jsnum (utf8Encode s).length) with e | hb
      · rw [hh] at henc
        cases henc
      · rw [hh] at henc
        cases henc
        have := encodeHeaderBytes_pos _ _ _ hh
        simp only [List.length_append]
        omega
  · intro b fuel eb henc
    cases fuel with
    | zero =>
      rw [encodeItemBytes] at henc
      cases henc
    | succ g =>
      rw [encodeItemBytes, encodeBytesBytes] at henc
      simp only [vdepth]
      rcases hh : encodeHeaderBytes 2 (.jsnum b.length) with e | hb
      · rw [hh] at henc
        cases henc
      · rw [hh] at henc
        cases henc
        have := encodeHeaderBytes_pos _ _ _ hh
        simp only [List.length_append]
        omega
  · intro vs ih fuel eb henc
    cases fuel with
    | zero =>
      rw [encodeItemBytes] at henc
      cases henc
    | succ g =>
      rw [encodeItemBytes] at henc
      rcases hh : encodeHeaderBytes 4 (.jsnum vs.length) with e | hb
      · rw [hh] at henc
        cases henc
      · rw [hh] at henc
        rcases hbody : encodeListBytes (encodeItemBytes g) vs with e | body
        · rw [hbody] at henc
          cases henc
        · rw [hbody] at henc
          cases henc
          have h1 := encodeHeaderBytes_pos _ _ _ hh
          have h2 := ldepth_le_of_encodeList g vs body
            (fun v hv eb he => ih v hv g eb he) hbody
          simp only [vdepth, List.length_append]
          omega
  · intro kvs ih fuel eb henc
    cases fuel with
    | zero =>
      rw [encodeItemBytes] at henc
      cases henc
    | succ g =>
      rw [encodeItemBytes] at henc
      rcases hh : encodeHeaderBytes 5 (.jsnum kvs.length) with e | hb
      · rw [hh] at henc
        cases henc
      · rw [hh] at henc
        rcases hbody : encodeEntriesBytes (encodeItemBytes g) kvs with e | body
        · rw [hbody] at henc
          cases henc
        · rw [hbody] at henc
          cases henc
          have h1 := encodeHeaderBytes_pos _ _ _ hh
          have h2 := edepth_le_of_encodeEntries g kvs body
            (fun kv hkv eb he => ih kv hkv g eb he) hbody
          simp only [vdepth, List.length_append]
          omega
  · intro b fuel eb henc
    cases fuel with
    | zero =>
      rw [encodeItemBytes] at henc
      cases henc
    | succ g =>
      rw [encodeItemBytes] at henc
      simp only [vdepth]
      exact encodeHeaderBytes_pos _ _ _ henc
  · intro fuel eb henc
    cases fuel with
    | zero =>
      rw [encodeItemBytes] at henc
      cases henc
    | succ g =>
      rw [encodeItemBytes] at henc
      simp only [vdepth]
      exact encodeHeaderBytes_pos _ _ _ henc
  · intro fuel eb henc
    cases fuel with
    | zero =>
      rw [encodeItemBytes] at henc
      cases henc
    | succ g =>
      rw [encodeItemBytes] at henc
      simp only [vdepth]
      exact encodeHeaderBytes_pos _ _ _ henc
  · intro fuel eb henc
    cases fuel with
    | zero =>
      rw [encodeItemBytes] at henc
      cases henc
    | succ g =>
      rw [encodeItemBytes] at henc
      cases henc

theorem encodeList_isOk (fuel : Nat) (vs : List CborValue) :
    (∀ v ∈ vs, canonical v = true → vdepth v ≤ fuel →
      ∃ eb, encodeItemBytes fuel v = .ok eb) →
    canonicalList vs = true → ldepth vs ≤ fuel →
    ∃ body, encodeListBytes (encodeItemBytes fuel) vs = .ok body := by
  induction vs with
  | nil =>
    intro _ _ _
    exact ⟨[], rfl⟩
  | cons v t ih =>
    intro hdec hc hd
    simp only [canonicalList, Bool.and_eq_true] at hc
    simp only [ldepth] at hd
    obtain ⟨hb, hv⟩ := hdec v (by simp) hc.1 (by omega)
    obtain ⟨tb, ht⟩ := ih (fun w hw => hdec w (by simp [hw])) hc.2 (by omega)
    exact ⟨hb ++ tb, by rw [encodeListBytes, hv, ht]⟩

theorem encodeEntries_isOk (fuel : Nat) (kvs : List (String × CborValue)) :
    (∀ kv ∈ kvs, canonical kv.2 = true → vdepth kv.2 ≤ fuel →
      ∃ eb, encodeItemBytes fuel kv.2 = .ok eb) →
    canonicalEntries kvs = true → edepth kvs ≤ fuel →
    ∃ body, encodeEntriesBytes (encodeItemBytes fuel) kvs = .ok body := by
  induction kvs with
  | nil =>
    intro _ _ _
    exact ⟨[], rfl⟩
  | cons kv t ih =>
    obtain ⟨k, v⟩ := kv
    intro hdec hc hd
    simp only [canonicalEntries, Bool.and_eq_true, decide_eq_true_eq] at hc
    simp only [edepth] at hd
    obtain ⟨kb, hk⟩ : ∃ kb, encodeTextStringBytes k = .ok kb := by
      rw [encodeTextStringBytes, encodeBytesBytes]
      obtain ⟨hb, hh⟩ := encodeHeaderBytes_isOk 3 (.jsnum (utf8Encode k).length)
        (by simp only [enumLe, EIGHT_BYTES_MAX, decide_eq_true_eq]; omega)
      rw [hh]
      exact ⟨_, rfl⟩
    obtain ⟨vb, hv⟩ := hdec (k, v) (by simp) hc.1.2 (by show vdepth v ≤ fuel; omega)
    obtain ⟨tb, ht⟩ := ih (fun w hw => hdec w (by simp [hw])) hc.2 (by omega)
    exact ⟨kb ++ vb ++ tb, by rw [encodeEntriesBytes, hk, hv, ht]⟩

/-- A canonical value always encodes successfully (at any fuel covering
its depth). -/
theorem encodeItemBytes_isOk_of_canonical :
    ∀ v : CborValue, ∀ fuel : Nat, canonical v = true → vdepth v ≤ fuel →
      ∃ eb, encodeItemBytes fuel v = .ok eb := by
  refine cborInduction ?_ ?_ ?_ ?_ ?_ ?_ ?_ ?_ ?_ ?_ ?_
  · intro n fuel hcan hfd
    obtain ⟨g, rfl⟩ : ∃ g, fuel = g + 1 := ⟨fuel - 1, by have := vdepth_pos (.num n); omega⟩
    simp only [canonical, Bool.and_eq_true, decide_eq_true_eq] at hcan
    rw [encodeItemBytes, encodeNumberBytes]
    by_cases hn : 0 ≤ n
    · rw [if_pos hn]
      exact encodeHeaderBytes_isOk 0 _
        (by simp only [enumLe, EIGHT_BYTES_MAX, decide_eq_true_eq]; omega)
    · rw [if_neg hn]
      exact encodeHeaderBytes_isOk 1 _
        (by simp only [enumLe, EIGHT_BYTES_MAX, decide_eq_true_eq]; omega)
  · intro n fuel hcan hfd
    obtain ⟨g, rfl⟩ : ∃ g, fuel = g + 1 := ⟨fuel - 1, by have := vdepth_pos (.big n); omega⟩
    simp only [canonical, Bool.and_eq_true, Bool.or_eq_true, decide_eq_true_eq] at hcan
    rw [encodeItemBytes, encodeNumberBytes]
    by_cases hn : 0 ≤ n
    · rw [if_pos hn]
      exact encodeHeaderBytes_isOk 0 _
        (by simp only [enumLe, EIGHT_BYTES_MAX, decide_eq_true_eq]; omega)
    · rw [if_neg hn]
      exact encodeHeaderBytes_isOk 1 _
        (by simp only [enumLe, EIGHT_BYTES_MAX, decide_eq_true_eq]; omega)
  · intro b fuel hcan hfd
    simp [canonical] at hcan
  · intro s fuel hcan hfd
    obtain ⟨g, rfl⟩ : ∃ g, fuel = g + 1 := ⟨fuel - 1, by have := vdepth_pos (.str s); omega⟩
    simp only [canonical, decide_eq_true_eq] at hcan
    rw [encodeItemBytes, encodeTextStringBytes, encodeBytesBytes]
    obtain ⟨hb, hh⟩ := encodeHeaderBytes_isOk 3 (.jsnum (utf8Encode s).length)
      (by simp only [enumLe, EIGHT_BYTES_MAX, decide_eq_true_eq]; omega)
    rw [hh]
    exact ⟨_, rfl⟩
  · intro b fuel hcan hfd
    obtain ⟨g, rfl⟩ : ∃ g, fuel = g + 1 := ⟨fuel - 1, by have := vdepth_pos (.bytes b); omega⟩
    simp only [canonical, Bool.and_eq_true, decide_eq_true_eq] at hcan
    rw [encodeItemBytes, encodeBytesBytes]
    obtain ⟨hb, hh⟩ := encodeHeaderBytes_isOk 2 (.jsnum b.length)
      (by simp only [enumLe, EIGHT_BYTES_MAX, decide_eq_true_eq]; omega)
    rw [hh]
    exact ⟨_, rfl⟩
  · intro vs ih fuel hcan hfd
    obtain ⟨g, rfl⟩ : ∃ g, fuel = g + 1 := ⟨fuel - 1, by have := vdepth_pos (.arr vs); omega⟩
    simp only [canonical, Bool.and_eq_true, decide_eq_true_eq] at hcan
    rw [encodeItemBytes]
    obtain ⟨hb, hh⟩ := encodeHeaderBytes_isOk 4 (.jsnum vs.length)
      (by simp only [enumLe, EIGHT_BYTES_MAX, decide_eq_true_eq]; omega)
    rw [hh]
    have hld : ldepth vs ≤ g := by
      have : vdepth (.arr vs) ≤ g + 1 := hfd
      simp only [vdepth] at this
      omega
    obtain ⟨body, hbody⟩ := encodeList_isOk g vs
      (fun v hv => ih v hv g) hcan.2 hld
    rw [hbody]
    exact ⟨_, rfl⟩
  · intro kvs ih fuel hcan hfd
    obtain ⟨g, rfl⟩ : ∃ g, fuel = g + 1 := ⟨fuel - 1, by have := vdepth_pos (.map kvs); omega⟩
    simp only [canonical, Bool.and_eq_true, decide_eq_true_eq] at hcan
    rw [encodeItemBytes]
    obtain ⟨hb, hh⟩ := encodeHeaderBytes_isOk 5 (.jsnum kvs.length)
      (by simp only [enumLe, EIGHT_BYTES_MAX, decide_eq_true_eq]; omega)
    rw [hh]
    have hed : edepth kvs ≤ g := by
      have : vdepth (.map kvs) ≤ g + 1 := hfd
      simp only [vdepth] at this
      omega
    obtain ⟨body, hbody⟩ := encodeEntries_isOk g kvs
      (fun kv hkv => ih kv hkv g) hcan.2 hed
    rw [hbody]
    exact ⟨_, rfl⟩
  · intro b fuel hcan hfd
    obtain ⟨g, rfl⟩ : ∃ g, fuel = g + 1 := ⟨fuel - 1, by have := vdepth_pos (.bool b); omega⟩
    cases b
    · exact ⟨[0xF4], rfl⟩
    · exact ⟨[0xF5], rfl⟩
  · intro fuel hcan hfd
    obtain ⟨g, rfl⟩ : ∃ g, fuel = g + 1 := ⟨fuel - 1, by have := vdepth_pos .null; omega⟩
    exact ⟨[0xF6], rfl⟩
  · intro fuel hcan hfd
    obtain ⟨g, rfl⟩ : ∃ g, fuel = g + 1 := ⟨fuel - 1, by have := vdepth_pos .undef; omega⟩
    exact ⟨[0xF7], rfl⟩
  · intro fuel hcan hfd
    simp [canonical] at hcan

/-- `encode` succeeds on every canonical value. -/
theorem encode_isOk_of_canonical (v : CborValue) (h : canonical v = true) :
    ∃ eb, encode v = .ok eb := by
  obtain ⟨eb, he⟩ := encodeItemBytes_isOk_of_canonical v (vdepth v) h le_rfl
  exact ⟨eb, by rw [encode]; exact he⟩

/-! ## Helper lemmas: header minimality -/

/-- No narrower variant of the CBOR header menu can represent a
magnitude than the one `minTrailingLen` selects. -/
theorem minTrailingLen_min (m t : Nat)
    (hmenu : t = 0 ∨ t = 1 ∨ t = 2 ∨ t = 4 ∨ t = 8) (hw : widthFits m t) :
    minTrailingLen m ≤ t := by
  have hpow : t ≠ 0 → m < 2 ^ (8 * t) := by
    intro h0
    rcases hw with ⟨rfl, _⟩ | ⟨_, hm⟩
    · omega
    · exact hm
  have hsmall : t = 0 → m ≤ 23 := by
    intro h0
    rcases hw with ⟨_, hm⟩ | ⟨hp, _⟩
    · exact hm
    · omega
  rcases hmenu with rfl | rfl | rfl | rfl | rfl
  · rw [minTrailingLen, if_pos (hsmall rfl)]
  · have hm : m < 256 := by
      have := hpow (by omega)
      norm_num at this
      omega
    rw [minTrailingLen]
    by_cases h0 : m ≤ 23
    · rw [if_pos h0]
      omega
    · rw [if_neg h0, if_pos (by omega : m ≤ 0xff)]
  · have hm : m < 65536 := by
      have := hpow (by omega)
      norm_num at this
      omega
    rw [minTrailingLen]
    by_cases h0 : m ≤ 23
    · rw [if_pos h0]
      omega
    · rw [if_neg h0]
      by_cases h1 : m ≤ 0xff
      · rw [if_pos h1]
        omega
      · rw [if_neg h1, if_pos (by omega : m ≤ 0xffff)]
  · have hm : m < 4294967296 := by
      have := hpow (by omega)
      norm_num at this
      omega
    rw [minTrailingLen]
    by_cases h0 : m ≤ 23
    · rw [if_pos h0]
      omega
    · rw [if_neg h0]
      by_cases h1 : m ≤ 0xff
      · rw [if_pos h1]
        omega
      · rw [if_neg h1]
        by_cases h2 : m ≤ 0xffff
        · rw [if_pos h2]
          omega
        · rw [if_neg h2, if_pos (by omega : m ≤ 0xffffffff)]
  · rw [minTrailingLen]
    by_cases h0 : m ≤ 23
    · rw [if_pos h0]
      omega
    · rw [if_neg h0]
      by_cases h1 : m ≤ 0xff
      · rw [if_pos h1]
        omega
      · rw [if_neg h1]
        by_cases h2 : m ≤ 0xffff
        · rw [if_pos h2]
          omega
        · rw [if_neg h2]
          by_cases h3 : m ≤ 0xffffffff
          · rw [if_pos h3]
            omega
          · rw [if_neg h3]

/-- The header cascade emits exactly the minimal-width variant for a
magnitude `m`: one type byte carrying the selected info code and
`minTrailingLen m` trailing bytes. -/
theorem encodeHeaderBytes_minimal (mt m : Nat) (u : ENum)
    (henl : ∀ c : Int, enumLe u c = decide ((m : Int) ≤ c))
    (hton : enumToNat u = m) (bs : List Nat)
    (h : encodeHeaderBytes mt u = .ok bs) : MinimalOut mt m bs := by
  rw [encodeHeaderBytes] at h
  simp only [henl, hton, decide_eq_true_eq, TOKEN_VALUE_MAX, ONE_BYTE_MAX, TWO_BYTES_MAX,
    FOUR_BYTES_MAX, EIGHT_BYTES_MAX] at h
  by_cases h0 : m ≤ 23
  · rw [if_pos (by omega : (m : Int) ≤ 23)] at h
    cases h
    have hmt : minTrailingLen m = 0 := by rw [minTrailingLen, if_pos h0]
    refine ⟨by simp [hmt], by simp [infoCodeOf, hmt], fun t ht hw => minTrailingLen_min m t ht hw⟩
  · rw [if_neg (by omega : ¬ ((m : Int) ≤ 23))] at h
    by_cases h1 : m ≤ 255
    · rw [if_pos (by omega : (m : Int) ≤ 255)] at h
      cases h
      have hmt : minTrailingLen m = 1 := by rw [minTrailingLen, if_neg h0, if_pos h1]
      have hmod : m % 256 = m := Nat.mod_eq_of_lt (by omega)
      refine ⟨by simp [hmt], by simp [infoCodeOf, hmt],
        fun t ht hw => minTrailingLen_min m t ht hw⟩
    · rw [if_neg (by omega : ¬ ((m : Int) ≤ 255))] at h
      by_cases h2 : m ≤ 65535
      · rw [if_pos (by omega : (m : Int) ≤ 65535)] at h
        cases h
        have hmt : minTrailingLen m = 2 := by
          rw [minTrailingLen, if_neg h0, if_neg h1, if_pos h2]
        refine ⟨by simp [hmt, beBytes_length], by simp [infoCodeOf, hmt],
          fun t ht hw => minTrailingLen_min m t ht hw⟩
      · rw [if_neg (by omega : ¬ ((m : Int) ≤ 65535))] at h
        by_cases h3 : m ≤ 4294967295
        · rw [if_pos (by omega : (m : Int) ≤ 4294967295)] at h
          cases h
          have hmt : minTrailingLen m = 4 := by
            rw [minTrailingLen, if_neg h0, if_neg h1, if_neg h2, if_pos h3]
          refine ⟨by simp [hmt, beBytes_length], by simp [infoCodeOf, hmt],
            fun t ht hw => minTrailingLen_min m t ht hw⟩
        · by_cases h4 : m ≤ 18446744073709551615
          · rw [if_neg (by omega : ¬ ((m : Int) ≤ 4294967295)),
              if_pos (by omega : (m : Int) ≤ 18446744073709551615)] at h
            cases h
            have hmt : minTrailingLen m = 8 := by
              rw [minTrailingLen, if_neg h0, if_neg h1, if_neg h2, if_neg h3]
            refine ⟨by simp [hmt, beBytes_length], by simp [infoCodeOf, hmt],
              fun t ht hw => minTrailingLen_min m t ht hw⟩
          · rw [if_neg (by omega : ¬ ((m : Int) ≤ 4294967295)),
              if_neg (by omega : ¬ ((m : Int) ≤ 18446744073709551615))] at h
            cases h

/-! ## Helper lemmas: the stateful encoder against the pure byte stream

A successful run of the capacity-carrying encoder extends the written
prefix of the buffer by exactly the pure byte stream; capacity can only
turn success into a `RangeError`, never change the bytes of a
successful run. -/

/-- A well-formed module state: the cached `length` property is the
contents' length and the offset is inside the buffer.  Every state the
code builds is well formed. -/
def EncWF (s : EncState) : Prop :=
  s.target.length = s.cap ∧ s.offset ≤ s.cap

/-- One successful write run: the offset advances by the bytes written,
the state stays well formed, and the written prefix grows by exactly
`w`. -/
def WR (s s' : EncState) (w : List Nat) : Prop :=
  s'.offset = s.offset + w.length ∧ EncWF s' ∧
  s'.target.take s'.offset = s.target.take s.offset ++ w

theorem WR_refl (s : EncState) (h : EncWF s) : WR s s [] := by
  refine ⟨by simp, h, by simp⟩

theorem WR_trans {s s1 s2 : EncState} {w1 w2 : List Nat}
    (h1 : WR s s1 w1) (h2 : WR s1 s2 w2) : WR s s2 (w1 ++ w2) := by
  refine ⟨?_, h2.2.1, ?_⟩
  · rw [h2.1, h1.1, List.length_append]
    omega
  · rw [h2.2.2, h1.2.2, List.append_assoc]

theorem WR_trans_nil {s s1 s2 : EncState} {w : List Nat}
    (h1 : WR s s1 []) (h2 : WR s1 s2 w) : WR s s2 w := by
  have h := WR_trans h1 h2
  rwa [List.nil_append] at h

theorem resizeUint8Array_take (t : List Nat) (len newSize k : Nat) (h : k ≤ t.length) :
    (resizeUint8Array t len newSize).take k = t.take k := by
  rw [resizeUint8Array]
  exact List.take_append_of_le_length h

/-- The `encodeItem` headroom check only grows the buffer: no write. -/
theorem ensureItemHeadroom_WR (s : EncState) (h : EncWF s) :
    WR s (ensureItemHeadroom s) [] := by
  rw [ensureItemHeadroom]
  split
  · refine ⟨by simp, ⟨?_, ?_⟩, ?_⟩
    · show (resizeUint8Array s.target s.cap (s.cap * 2)).length = s.cap * 2
      simp only [resizeUint8Array, List.length_append, List.length_replicate, h.1]
      omega
    · show s.offset ≤ s.cap * 2
      have := h.2
      omega
    · simp only [List.append_nil]
      exact resizeUint8Array_take s.target s.cap (s.cap * 2) s.offset
        (by rw [h.1]; exact h.2)
  · exact WR_refl s h

/-- The `encodeBytes` payload check only grows the buffer: no write. -/
theorem ensurePayloadRoom_WR (s : EncState) (n : Nat) (h : EncWF s) :
    WR s (ensurePayloadRoom s n) [] := by
  rw [ensurePayloadRoom]
  split
  · refine ⟨by simp, ⟨?_, ?_⟩, ?_⟩
    · show (resizeUint8Array s.target s.cap (s.cap + n)).length = s.cap + n
      simp only [resizeUint8Array, List.length_append, List.length_replicate, h.1]
      omega
    · show s.offset ≤ s.cap + n
      have := h.2
      omega
    · simp only [List.append_nil]
      exact resizeUint8Array_take s.target s.cap (s.cap + n) s.offset
        (by rw [h.1]; exact h.2)
  · exact WR_refl s h

/-- A successful `DataView`/`set` write run appends its bytes to the
written prefix. -/
theorem writeBytesAt_run (s : EncState) (w : List Nat) (s' : EncState)
    (hWF : EncWF s)
    (h : writeBytesAt s w = .ok s') : WR s s' w := by
  obtain ⟨t, cap, o⟩ := s
  have h1 : t.length = cap := hWF.1
  have h2 : o ≤ cap := hWF.2
  simp only [writeBytesAt] at h
  by_cases hfit : o + w.length ≤ cap
  · rw [if_pos hfit] at h
    cases h
    refine ⟨rfl, ⟨?_, hfit⟩, ?_⟩
    · show ((t.take o ++ w) ++ t.drop (o + w.length)).length = cap
      simp only [List.length_append, List.length_take, List.length_drop]
      omega
    · show ((t.take o ++ w) ++ t.drop (o + w.length)).take (o + w.length) = t.take o ++ w
      exact List.take_left' (by simp only [List.length_append, List.length_take]; omega)
  · rw [if_neg hfit] at h
    cases h

theorem encodeHeaderS_sound (mt : Nat) (u : ENum) (s s' : EncState)
    (hWF : EncWF s)
    (h : encodeHeaderS mt u s = .ok s') :
    ∃ w, encodeHeaderBytes mt u = .ok w ∧ WR s s' w := by
  rw [encodeHeaderS] at h
  rcases hh : encodeHeaderBytes mt u with e | w
  · simp only [hh] at h
    cases h
  · simp only [hh] at h
    exact ⟨w, rfl, writeBytesAt_run s w s' hWF h⟩

theorem encodeNumberS_sound (v : CborValue) (s s' : EncState)
    (hWF : EncWF s)
    (h : encodeNumberS v s = .ok s') :
    ∃ w, encodeNumberBytes v = .ok w ∧ WR s s' w := by
  rw [encodeNumberS] at h
  rcases hh : encodeNumberBytes v with e | w
  · simp only [hh] at h
    cases h
  · simp only [hh] at h
    exact ⟨w, rfl, writeBytesAt_run s w s' hWF h⟩

theorem encodeBytesS_sound (mt : Nat) (payload : List Nat) (s s' : EncState)
    (hWF : EncWF s)
    (h : encodeBytesS mt payload s = .ok s') :
    ∃ w, encodeBytesBytes mt payload = .ok w ∧ WR s s' w := by
  rw [encodeBytesS] at h
  rcases hh : encodeHeaderS mt (.jsnum payload.length) s with e | s1
  · simp only [hh] at h
    cases h
  · simp only [hh] at h
    obtain ⟨hb, hhb, hWR1⟩ := encodeHeaderS_sound mt (.jsnum payload.length) s s1 hWF hh
    have hWRe := ensurePayloadRoom_WR s1 payload.length hWR1.2.1
    have hWR2 := writeBytesAt_run (ensurePayloadRoom s1 payload.length) payload s'
      hWRe.2.1 h
    refine ⟨hb ++ payload, ?_, WR_trans hWR1 (WR_trans_nil hWRe hWR2)⟩
    rw [encodeBytesBytes, hhb]

theorem encodeTextStringS_sound (k : String) (s s' : EncState)
    (hWF : EncWF s)
    (h : encodeTextStringS k s = .ok s') :
    ∃ w, encodeTextStringBytes k = .ok w ∧ WR s s' w := by
  rw [encodeTextStringS] at h
  exact encodeBytesS_sound 3 (utf8Encode k) s s' hWF h

/-- With no replacer, a successful array loop writes the pure element
stream. -/
theorem encodeArrayItemsS_sound (vs : List CborValue)
    (eI : CborValue → EncState → Except JsErr EncState)
    (eB : CborValue → Except JsErr (List Nat))
    (heq : ∀ v ∈ vs, ∀ s s' : EncState, EncWF s → eI v s = .ok s' →
      ∃ w, eB v = .ok w ∧ WR s s' w) :
    ∀ (i : Nat) (s s' : EncState), EncWF s →
      encodeArrayItemsS eI none vs i s = .ok s' →
      ∃ body, encodeListBytes eB vs = .ok body ∧ WR s s' body := by
  induction vs with
  | nil =>
    intro i s s' hWF h
    cases h
    exact ⟨[], rfl, WR_refl s hWF⟩
  | cons v t ih =>
    intro i s s' hWF h
    have hunfold : encodeArrayItemsS eI none (v :: t) i s =
        (match eI v s with
          | .error e => .error e
          | .ok s2 => encodeArrayItemsS eI none t (i + 1) s2) := rfl
    rw [hunfold] at h
    rcases he : eI v s with e | s1
    · simp only [he] at h
      cases h
    · simp only [he] at h
      obtain ⟨w, hw, hWR⟩ := heq v (by simp) s s1 hWF he
      obtain ⟨tb, htb, hWR2⟩ := ih (fun u hu => heq u (by simp [hu])) (i + 1) s1 s'
        hWR.2.1 h
      refine ⟨w ++ tb, ?_, WR_trans hWR hWR2⟩
      rw [encodeListBytes, hw, htb]

/-- With no replacer, a successful map-entry loop writes the pure entry
stream. -/
theorem encodeMapEntriesS_sound (kvs : List (String × CborValue))
    (eI : CborValue → EncState → Except JsErr EncState)
    (eB : CborValue → Except JsErr (List Nat))
    (heq : ∀ kv ∈ kvs, ∀ s s' : EncState, EncWF s → eI kv.2 s = .ok s' →
      ∃ w, eB kv.2 = .ok w ∧ WR s s' w) :
    ∀ s s' : EncState, EncWF s →
      encodeMapEntriesS eI none kvs s = .ok s' →
      ∃ body, encodeEntriesBytes eB kvs = .ok body ∧ WR s s' body := by
  induction kvs with
  | nil =>
    intro s s' hWF h
    cases h
    exact ⟨[], rfl, WR_refl s hWF⟩
  | cons kv t ih =>
    obtain ⟨k, v⟩ := kv
    intro s s' hWF h
    have hunfold : encodeMapEntriesS eI none ((k, v) :: t) s =
        (match encodeTextStringS k s with
          | .error e => .error e
          | .ok s1 =>
            match eI v s1 with
            | .error e => .error e
            | .ok s2 => encodeMapEntriesS eI none t s2) := rfl
    rw [hunfold] at h
    rcases hk : encodeTextStringS k s with e | s1
    · simp only [hk] at h
      cases h
    · simp only [hk] at h
      obtain ⟨kb, hkb, hWR1⟩ := encodeTextStringS_sound k s s1 hWF hk
      rcases hv : eI v s1 with e | s2
      · simp only [hv] at h
        cases h
      · simp only [hv] at h
        obtain ⟨vb, hvb, hWR2⟩ := heq (k, v) (by simp) s1 s2 hWR1.2.1 hv
        obtain ⟨tb, htb, hWR3⟩ := ih (fun u hu => heq u (by simp [hu])) s2 s'
          hWR2.2.1 h
        refine ⟨kb ++ vb ++ tb, ?_, ?_⟩
        · rw [encodeEntriesBytes, hkb, hvb, htb]
        · have := WR_trans (WR_trans hWR1 hWR2) hWR3
          rwa [List.append_assoc, ← List.append_assoc] at this

/-- With no replacer, a successful `encodeItem` run against any
well-formed module state writes exactly the pure byte stream of the
value (capacity can fail a run, never change a successful run's
bytes). -/
theorem encodeItemS_none_sound :
    ∀ v : CborValue, ∀ (fuel : Nat) (s s' : EncState), EncWF s →
      encodeItemS fuel none v s = .ok s' →
      ∃ w, encodeItemBytes fuel v = .ok w ∧ WR s s' w := by
  refine cborInduction ?_ ?_ ?_ ?_ ?_ ?_ ?_ ?_ ?_ ?_ ?_
  · intro n fuel s s' hinv h
    cases fuel with
    | zero => cases h
    | succ f =>
      have hunf : encodeItemS (f + 1) none (.num n) s =
          encodeNumberS (.num n) (ensureItemHeadroom s) := rfl
      rw [hunf] at h
      have hWRh := ensureItemHeadroom_WR s hinv
      obtain ⟨w, hw, hWR⟩ := encodeNumberS_sound (.num n) _ s' hWRh.2.1 h
      exact ⟨w, hw, WR_trans_nil hWRh hWR⟩
  · intro n fuel s s' hinv h
    cases fuel with
    | zero => cases h
    | succ f =>
      have hunf : encodeItemS (f + 1) none (.big n) s =
          encodeNumberS (.big n) (ensureItemHeadroom s) := rfl
      rw [hunf] at h
      have hWRh := ensureItemHeadroom_WR s hinv
      obtain ⟨w, hw, hWR⟩ := encodeNumberS_sound (.big n) _ s' hWRh.2.1 h
      exact ⟨w, hw, WR_trans_nil hWRh hWR⟩
  · intro b fuel s s' hinv h
    cases fuel with
    | zero => cases h
    | succ f =>
      have hunf : encodeItemS (f + 1) none (.infy b) s =
          encodeNumberS (.infy b) (ensureItemHeadroom s) := rfl
      rw [hunf] at h
      have hWRh := ensureItemHeadroom_WR s hinv
      obtain ⟨w, hw, hWR⟩ := encodeNumberS_sound (.infy b) _ s' hWRh.2.1 h
      exact ⟨w, hw, WR_trans_nil hWRh hWR⟩
  · intro str fuel s s' hinv h
    cases fuel with
    | zero => cases h
    | succ f =>
      have hunf : encodeItemS (f + 1) none (.str str) s =
          encodeTextStringS str (ensureItemHeadroom s) := rfl
      rw [hunf] at h
      have hWRh := ensureItemHeadroom_WR s hinv
      obtain ⟨w, hw, hWR⟩ := encodeTextStringS_sound str _ s' hWRh.2.1 h
      exact ⟨w, hw, WR_trans_nil hWRh hWR⟩
  · intro b fuel s s' hinv h
    cases fuel with
    | zero => cases h
    | succ f =>
      have hunf : encodeItemS (f + 1) none (.bytes b) s =
          encodeBytesS 2 b (ensureItemHeadroom s) := rfl
      rw [hunf] at h
      have hWRh := ensureItemHeadroom_WR s hinv
      obtain ⟨w, hw, hWR⟩ := encodeBytesS_sound 2 b _ s' hWRh.2.1 h
      exact ⟨w, hw, WR_trans_nil hWRh hWR⟩
  · intro vs ih fuel s s' hinv h
    cases fuel with
    | zero => cases h
    | succ f =>
      have hunf : encodeItemS (f + 1) none (.arr vs) s =
          (match encodeHeaderS 4 (.jsnum vs.length) (ensureItemHeadroom s) with
            | .error e => .error e
            | .ok s1 => encodeArrayItemsS (encodeItemS f none) none vs 0 s1) := rfl
      rw [hunf] at h
      have hWRh := ensureItemHeadroom_WR s hinv
      rcases hh : encodeHeaderS 4 (.jsnum vs.length) (ensureItemHeadroom s) with e | s1
      · simp only [hh] at h
        cases h
      · simp only [hh] at h
        obtain ⟨hb, hhb, hWR1⟩ := encodeHeaderS_sound 4 (.jsnum vs.length) _ s1
          hWRh.2.1 hh
        obtain ⟨body, hbody, hWR2⟩ := encodeArrayItemsS_sound vs (encodeItemS f none)
          (encodeItemBytes f) (fun u hu s2 s3 h2 h3 => ih u hu f s2 s3 h2 h3) 0 s1 s'
          hWR1.2.1 h
        refine ⟨hb ++ body, ?_, WR_trans_nil hWRh (WR_trans hWR1 hWR2)⟩
        have hunf2 : encodeItemBytes (f + 1) (.arr vs) =
            (match encodeHeaderBytes 4 (.jsnum vs.length) with
              | .error e => .error e
              | .ok hh =>
                match encodeListBytes (encodeItemBytes f) vs with
                | .error e => .error e
                | .ok body => .ok (hh ++ body)) := rfl
        rw [hunf2, hhb, hbody]
  · intro kvs ih fuel s s' hinv h
    cases fuel with
    | zero => cases h
    | succ f =>
      have hunf : encodeItemS (f + 1) none (.map kvs) s =
          (match encodeHeaderS 5 (.jsnum kvs.length) (ensureItemHeadroom s) with
            | .error e => .error e
            | .ok s1 => encodeMapEntriesS (encodeItemS f none) none kvs s1) := rfl
      rw [hunf] at h
      have hWRh := ensureItemHeadroom_WR s hinv
      rcases hh : encodeHeaderS 5 (.jsnum kvs.length) (ensureItemHeadroom s) with e | s1
      · simp only [hh] at h
        cases h
      · simp only [hh] at h
        obtain ⟨hb, hhb, hWR1⟩ := encodeHeaderS_sound 5 (.jsnum kvs.length) _ s1
          hWRh.2.1 hh
        obtain ⟨body, hbody, hWR2⟩ := encodeMapEntriesS_sound kvs (encodeItemS f none)
          (encodeItemBytes f) (fun u hu s2 s3 h2 h3 => ih u hu f s2 s3 h2 h3) s1 s'
          hWR1.2.1 h
        refine ⟨hb ++ body, ?_, WR_trans_nil hWRh (WR_trans hWR1 hWR2)⟩
        have hunf2 : encodeItemBytes (f + 1) (.map kvs) =
            (match encodeHeaderBytes 5 (.jsnum kvs.length) with
              | .error e => .error e
              | .ok hh =>
                match encodeEntriesBytes (encodeItemBytes f) kvs with
                | .error e => .error e
                | .ok body => .ok (hh ++ body)) := rfl
        rw [hunf2, hhb, hbody]
  · intro b fuel s s' hinv h
    cases fuel with
    | zero => cases h
    | succ f =>
      have hunf : encodeItemS (f + 1) none (.bool b) s =
          encodeHeaderS 7 (.jsnum (mapSimple (.bool b))) (ensureItemHeadroom s) := rfl
      rw [hunf] at h
      have hWRh := ensureItemHeadroom_WR s hinv
      obtain ⟨w, hw, hWR⟩ := encodeHeaderS_sound 7 (.jsnum (mapSimple (.bool b))) _ s'
        hWRh.2.1 h
      exact ⟨w, hw, WR_trans_nil hWRh hWR⟩
  · intro fuel s s' hinv h
    cases fuel with
    | zero => cases h
    | succ f =>
      have hunf : encodeItemS (f + 1) none .null s =
          encodeHeaderS 7 (.jsnum (mapSimple .null)) (ensureItemHeadroom s) := rfl
      rw [hunf] at h
      have hWRh := ensureItemHeadroom_WR s hinv
      obtain ⟨w, hw, hWR⟩ := encodeHeaderS_sound 7 (.jsnum (mapSimple .null)) _ s'
        hWRh.2.1 h
      exact ⟨w, hw, WR_trans_nil hWRh hWR⟩
  · intro fuel s s' hinv h
    cases fuel with
    | zero => cases h
    | succ f =>
      have hunf : encodeItemS (f + 1) none .undef s =
          encodeHeaderS 7 (.jsnum (mapSimple .undef)) (ensureItemHeadroom s) := rfl
      rw [hunf] at h
      have hWRh := ensureItemHeadroom_WR s hinv
      obtain ⟨w, hw, hWR⟩ := encodeHeaderS_sound 7 (.jsnum (mapSimple .undef)) _ s'
        hWRh.2.1 h
      exact ⟨w, hw, WR_trans_nil hWRh hWR⟩
  · intro fuel s s' hinv h
    cases fuel with
    | zero => cases h
    | succ f =>
      have hunf : encodeItemS (f + 1) none .stopCode s =
          .error (.encodingError "Unsupported type: symbol") := rfl
      rw [hunf] at h
      cases h

/-- A call of `encode` (no replacer) that returns bytes returns exactly
the pure byte stream of its argument, from any inherited module state
whose cached capacity is its buffer's length. -/
theorem encodeTopS_none_sound (fuel : Nat) (v : CborValue) (st : EncState)
    (bs : List Nat) (st2 : EncState)
    (hwf : st.target.length = st.cap)
    (h : encodeTopS fuel none v st = .ok (bs, st2)) :
    encodeItemBytes fuel v = .ok bs := by
  have hunf : encodeTopS fuel none v st =
      (match encodeItemS fuel none v ⟨st.target, st.cap, 0⟩ with
        | .error e => .error e
        | .ok s2 => .ok (s2.target.take s2.offset, s2)) := rfl
  rw [hunf] at h
  rcases he : encodeItemS fuel none v ⟨st.target, st.cap, 0⟩ with e | s2
  · simp only [he] at h
    cases h
  · simp only [he] at h
    obtain ⟨w, hw, hWR⟩ := encodeItemS_none_sound v fuel ⟨st.target, st.cap, 0⟩ s2
      ⟨hwf, Nat.zero_le _⟩ he
    cases h
    have h3 := hWR.2.2
    simp only [List.take_zero, List.nil_append] at h3
    rw [hw, h3]

theorem ldepth_le_fuel (fuel : Nat) (vs : List CborValue) :
    (∀ v ∈ vs, ∀ w, encodeItemBytes fuel v = .ok w → vdepth v ≤ fuel) →
    ∀ body, encodeListBytes (encodeItemBytes fuel) vs = .ok body → ldepth vs ≤ fuel := by
  induction vs with
  | nil =>
    intro _ body h
    simp [ldepth]
  | cons v t ih =>
    intro hdep body h
    rw [encodeListBytes] at h
    rcases hv : encodeItemBytes fuel v with e | hb
    · rw [hv] at h
      cases h
    · rw [hv] at h
      rcases ht : encodeListBytes (encodeItemBytes fuel) t with e | tb
      · rw [ht] at h
        cases h
      · have h1 := hdep v (by simp) hb hv
        have h2 := ih (fun u hu => hdep u (by simp [hu])) tb ht
        simp only [ldepth]
        omega

theorem edepth_le_fuel (fuel : Nat) (kvs : List (String × CborValue)) :
    (∀ kv ∈ kvs, ∀ w, encodeItemBytes fuel kv.2 = .ok w → vdepth kv.2 ≤ fuel) →
    ∀ body, encodeEntriesBytes (encodeItemBytes fuel) kvs = .ok body →
      edepth kvs ≤ fuel := by
  induction kvs with
  | nil =>
    intro _ body h
    simp [edepth]
  | cons kv t ih =>
    obtain ⟨k, v⟩ := kv
    intro hdep body h
    rw [encodeEntriesBytes] at h
    rcases hk : encodeTextStringBytes k with e | kb
    · rw [hk] at h
      cases h
    · rw [hk] at h
      rcases hv : encodeItemBytes fuel v with e | vb
      · rw [hv] at h
        cases h
      · rw [hv] at h
        rcases ht : encodeEntriesBytes (encodeItemBytes fuel) t with e | tb
        · rw [ht] at h
          cases h
        · have h1 : vdepth v ≤ fuel := hdep (k, v) (by simp) vb hv
          have h2 := ih (fun u hu => hdep u (by simp [hu])) tb ht
          simp only [edepth]
          omega

/-- A successful pure encoding has enough fuel for the value's depth. -/
theorem vdepth_le_of_encodeItemBytes_ok :
    ∀ v : CborValue, ∀ (fuel : Nat) (w : List Nat),
      encodeItemBytes fuel v = .ok w → vdepth v ≤ fuel := by
  refine cborInduction ?_ ?_ ?_ ?_ ?_ ?_ ?_ ?_ ?_ ?_ ?_
  · intro n fuel w h
    cases fuel with
    | zero => cases h
    | succ f =>
      simp only [vdepth]
      omega
  · intro n fuel w h
    cases fuel with
    | zero => cases h
    | succ f =>
      simp only [vdepth]
      omega
  · intro b fuel w h
    cases fuel with
    | zero => cases h
    | succ f =>
      simp only [vdepth]
      omega
  · intro str fuel w h
    cases fuel with
    | zero => cases h
    | succ f =>
      simp only [vdepth]
      omega
  · intro b fuel w h
    cases fuel with
    | zero => cases h
    | succ f =>
      simp only [vdepth]
      omega
  · intro vs ih fuel w h
    cases fuel with
    | zero => cases h
    | succ f =>
      rw [encodeItemBytes] at h
      rcases hh : encodeHeaderBytes 4 (.jsnum vs.length) with e | hb
      · rw [hh] at h
        cases h
      · rw [hh] at h
        rcases hbody : encodeListBytes (encodeItemBytes f) vs with e | body
        · rw [hbody] at h
          cases h
        · have := ldepth_le_fuel f vs (fun u hu w2 h2 => ih u hu f w2 h2) body hbody
          simp only [vdepth]
          omega
  · intro kvs ih fuel w h
    cases fuel with
    | zero => cases h
    | succ f =>
      rw [encodeItemBytes] at h
      rcases hh : encodeHeaderBytes 5 (.jsnum kvs.length) with e | hb
      · rw [hh] at h
        cases h
      · rw [hh] at h
        rcases hbody : encodeEntriesBytes (encodeItemBytes f) kvs with e | body
        · rw [hbody] at h
          cases h
        · have := edepth_le_fuel f kvs (fun u hu w2 h2 => ih u hu f w2 h2) body hbody
          simp only [vdepth]
          omega
  · intro b fuel w h
    cases fuel with
    | zero => cases h
    | succ f =>
      simp only [vdepth]
      omega
  · intro fuel w h
    cases fuel with
    | zero => cases h
    | succ f =>
      simp only [vdepth]
      omega
  · intro fuel w h
    cases fuel with
    | zero => cases h
    | succ f =>
      simp only [vdepth]
      omega
  · intro fuel w h
    cases fuel with
    | zero => cases h
    | succ f =>
      have hunf : encodeItemBytes (f + 1) CborValue.stopCode =
          .error (.encodingError "Unsupported type: symbol") := rfl
      rw [hunf] at h
      cases h

/-! ## Helper lemmas: evaluating capacity traces

Small forward-evaluation equations for the stateful encoder, used to
trace concrete runs while keeping the buffer contents abstract (only
the cached capacity and the offset decide every check, so the checks
stay on small numerals). -/

theorem writeBytesAt_fits (s : EncState) (w : List Nat) (h : s.offset + w.length ≤ s.cap) :
    writeBytesAt s w = .ok ⟨s.target.take s.offset ++ w ++ s.target.drop (s.offset + w.length),
      s.cap, s.offset + w.length⟩ := by
  rw [writeBytesAt, if_pos h]

theorem writeBytesAt_overflow (s : EncState) (w : List Nat)
    (h : ¬ (s.offset + w.length ≤ s.cap)) :
    writeBytesAt s w = .error .rangeError := by
  rw [writeBytesAt, if_neg h]

theorem writeBytesAt_shape (t : List Nat) (cap o : Nat) (w : List Nat)
    (h : o + w.length ≤ cap) :
    ∃ t2, writeBytesAt ⟨t, cap, o⟩ w = .ok ⟨t2, cap, o + w.length⟩ :=
  ⟨_, writeBytesAt_fits ⟨t, cap, o⟩ w h⟩

theorem writeBytesAt_overflow2 (t : List Nat) (cap o : Nat) (w : List Nat)
    (h : ¬ (o + w.length ≤ cap)) :
    writeBytesAt ⟨t, cap, o⟩ w = .error .rangeError :=
  writeBytesAt_overflow ⟨t, cap, o⟩ w h

theorem ensureItemHeadroom_id (t : List Nat) (cap o : Nat)
    (h : ¬ ((o : Int) > (cap : Int) - SAFE_BUFFER_END_OFFSET)) :
    ensureItemHeadroom ⟨t, cap, o⟩ = ⟨t, cap, o⟩ := by
  rw [ensureItemHeadroom, if_neg h]

theorem ensurePayloadRoom_id (t : List Nat) (cap o n : Nat)
    (h : ¬ ((o : Int) > (cap : Int) - (n : Int))) :
    ensurePayloadRoom ⟨t, cap, o⟩ n = ⟨t, cap, o⟩ := by
  rw [ensurePayloadRoom, if_neg h]

theorem encodeHeaderS_eval_ok (mt : Nat) (u : ENum) (s : EncState) (w : List Nat)
    (hw : encodeHeaderBytes mt u = .ok w) :
    encodeHeaderS mt u s = writeBytesAt s w := by
  rw [encodeHeaderS]
  simp only [hw]

theorem encodeBytesS_ok_header (mt : Nat) (payload : List Nat) (s s1 : EncState)
    (h : encodeHeaderS mt (.jsnum payload.length) s = .ok s1) :
    encodeBytesS mt payload s = writeBytesAt (ensurePayloadRoom s1 payload.length) payload := by
  rw [encodeBytesS]
  simp only [h]

theorem encodeBytesS_err_header (mt : Nat) (payload : List Nat) (s : EncState) (e : JsErr)
    (h : encodeHeaderS mt (.jsnum payload.length) s = .error e) :
    encodeBytesS mt payload s = .error e := by
  rw [encodeBytesS]
  simp only [h]

theorem encodeNumberS_eval_ok (v : CborValue) (s : EncState) (w : List Nat)
    (hw : encodeNumberBytes v = .ok w) :
    encodeNumberS v s = writeBytesAt s w := by
  rw [encodeNumberS]
  simp only [hw]

theorem encodeItemS_one_bytes (b : List Nat) (s : EncState) :
    encodeItemS 1 none (.bytes b) s = encodeBytesS 2 b (ensureItemHeadroom s) := rfl

theorem encodeItemS_one_num (n : Int) (s : EncState) :
    encodeItemS 1 none (.num n) s = encodeNumberS (.num n) (ensureItemHeadroom s) := rfl

theorem encodeItemS_two_map_ok (kvs : List (String × CborValue)) (s s1 : EncState)
    (hh : encodeHeaderS 5 (.jsnum kvs.length) (ensureItemHeadroom s) = .ok s1) :
    encodeItemS 2 none (.map kvs) s = encodeMapEntriesS (encodeItemS 1 none) none kvs s1 := by
  have hunf : encodeItemS 2 none (.map kvs) s =
      (match encodeHeaderS 5 (.jsnum kvs.length) (ensureItemHeadroom s) with
        | .error e => .error e
        | .ok s1 => encodeMapEntriesS (encodeItemS 1 none) none kvs s1) := rfl
  rw [hunf]
  simp only [hh]

theorem encodeMapEntriesS_cons_none_ok (eI : CborValue → EncState → Except JsErr EncState)
    (k : String) (v : CborValue) (t : List (String × CborValue)) (s s1 : EncState)
    (hk : encodeTextStringS k s = .ok s1) :
    encodeMapEntriesS eI none ((k, v) :: t) s =
      (match eI v s1 with
        | .error e => .error e
        | .ok s3 => encodeMapEntriesS eI none t s3) := by
  have hunf : encodeMapEntriesS eI none ((k, v) :: t) s =
      (match encodeTextStringS k s with
        | .error e => .error e
        | .ok s1 =>
          match eI v s1 with
          | .error e => .error e
          | .ok s3 => encodeMapEntriesS eI none t s3) := rfl
  rw [hunf]
  simp only [hk]

theorem encodeMapEntriesS_cons_none_key_err
    (eI : CborValue → EncState → Except JsErr EncState)
    (k : String) (v : CborValue) (t : List (String × CborValue)) (s : EncState) (e : JsErr)
    (hk : encodeTextStringS k s = .error e) :
    encodeMapEntriesS eI none ((k, v) :: t) s = .error e := by
  have hunf : encodeMapEntriesS eI none ((k, v) :: t) s =
      (match encodeTextStringS k s with
        | .error e => .error e
        | .ok s1 =>
          match eI v s1 with
          | .error e => .error e
          | .ok s3 => encodeMapEntriesS eI none t s3) := rfl
  rw [hunf]
  simp only [hk]

theorem encodeMapEntriesS_nil (eI : CborValue → EncState → Except JsErr EncState)
    (repl : Option SReplacer) (s : EncState) :
    encodeMapEntriesS eI repl [] s = .ok s := rfl

theorem encodeTopS_none_err (fuel : Nat) (v : CborValue) (s : EncState) (e : JsErr)
    (h : encodeItemS fuel none v ⟨s.target, s.cap, 0⟩ = .error e) :
    encodeTopS fuel none v s = .error e := by
  have hunf : encodeTopS fuel none v s =
      (match encodeItemS fuel none v ⟨s.target, s.cap, 0⟩ with
        | .error e => .error e
        | .ok s2 => .ok (s2.target.take s2.offset, s2)) := rfl
  rw [hunf]
  simp only [h]

theorem encodeTopS_none_okp (fuel : Nat) (v : CborValue) (s : EncState) (s2 : EncState)
    (h : encodeItemS fuel none v ⟨s.target, s.cap, 0⟩ = .ok s2) :
    encodeTopS fuel none v s = .ok (s2.target.take s2.offset, s2) := by
  have hunf : encodeTopS fuel none v s =
      (match encodeItemS fuel none v ⟨s.target, s.cap, 0⟩ with
        | .error e => .error e
        | .ok s2 => .ok (s2.target.take s2.offset, s2)) := rfl
  rw [hunf]
  simp only [h]

/-- The capacity trap fires on the fresh module: the exact-fit payload
takes the offset to the end of the 2048-byte buffer and the next key's
unguarded header write raises `RangeError`. -/
theorem capacityTrap_fresh_err :
    encodeTopS 2 none capacityTrap freshEncState = .error .rangeError := by
  obtain ⟨t1, h1⟩ := writeBytesAt_shape (List.replicate 2048 0) 2048 0 [0xA2] (by decide)
  have h1t : writeBytesAt ⟨List.replicate 2048 0, 2048, 0⟩ [0xA2] = .ok ⟨t1, 2048, 1⟩ := h1
  obtain ⟨t2, h2⟩ := writeBytesAt_shape t1 2048 1 [0x61] (by decide)
  have h2t : writeBytesAt ⟨t1, 2048, 1⟩ [0x61] = .ok ⟨t2, 2048, 2⟩ := h2
  obtain ⟨t3, h3⟩ := writeBytesAt_shape t2 2048 2 [97] (by decide)
  have h3t : writeBytesAt ⟨t2, 2048, 2⟩ [97] = .ok ⟨t3, 2048, 3⟩ := h3
  obtain ⟨t4, h4⟩ := writeBytesAt_shape t3 2048 3 [0x59, 0x07, 0xFA] (by decide)
  have h4t : writeBytesAt ⟨t3, 2048, 3⟩ [0x59, 0x07, 0xFA] = .ok ⟨t4, 2048, 6⟩ := h4
  obtain ⟨t5, h5⟩ := writeBytesAt_shape t4 2048 6 (List.replicate 2042 0)
    (by rw [List.length_replicate]; try decide)
  rw [List.length_replicate] at h5
  have h5t : writeBytesAt ⟨t4, 2048, 6⟩ (List.replicate 2042 0) = .ok ⟨t5, 2048, 2048⟩ := h5
  have hh1 : encodeHeaderS 5 (.jsnum 2)
      (ensureItemHeadroom ⟨List.replicate 2048 0, 2048, 0⟩) = .ok ⟨t1, 2048, 1⟩ := by
    rw [ensureItemHeadroom_id (List.replicate 2048 0) 2048 0 (by decide)]
    rw [encodeHeaderS_eval_ok 5 (.jsnum 2) ⟨List.replicate 2048 0, 2048, 0⟩ [0xA2] rfl]
    exact h1t
  have hKeyA : encodeTextStringS "a" ⟨t1, 2048, 1⟩ = .ok ⟨t3, 2048, 3⟩ := by
    rw [encodeTextStringS, show utf8Encode "a" = [97] from rfl]
    rw [encodeBytesS_ok_header 3 [97] ⟨t1, 2048, 1⟩ ⟨t2, 2048, 2⟩ (by
      rw [encodeHeaderS_eval_ok 3 (.jsnum ([97] : List Nat).length) ⟨t1, 2048, 1⟩ [0x61] rfl]
      exact h2t)]
    rw [ensurePayloadRoom_id t2 2048 2 ([97] : List Nat).length (by decide)]
    exact h3t
  have hValA : encodeItemS 1 none (.bytes (List.replicate 2042 0)) ⟨t3, 2048, 3⟩ =
      .ok ⟨t5, 2048, 2048⟩ := by
    rw [encodeItemS_one_bytes (List.replicate 2042 0) ⟨t3, 2048, 3⟩]
    rw [ensureItemHeadroom_id t3 2048 3 (by decide)]
    rw [encodeBytesS_ok_header 2 (List.replicate 2042 0) ⟨t3, 2048, 3⟩ ⟨t4, 2048, 6⟩ (by
      rw [encodeHeaderS_eval_ok 2 (.jsnum (List.replicate 2042 (0 : Nat)).length)
        ⟨t3, 2048, 3⟩ [0x59, 0x07, 0xFA] (by rw [List.length_replicate]; rfl)]
      exact h4t)]
    rw [List.length_replicate, ensurePayloadRoom_id t4 2048 6 2042 (by decide)]
    exact h5t
  have hKeyB : encodeTextStringS "b" ⟨t5, 2048, 2048⟩ = .error .rangeError := by
    rw [encodeTextStringS, show utf8Encode "b" = [98] from rfl]
    rw [encodeBytesS_err_header 3 [98] ⟨t5, 2048, 2048⟩ .rangeError (by
      rw [encodeHeaderS_eval_ok 3 (.jsnum ([98] : List Nat).length) ⟨t5, 2048, 2048⟩ [0x61] rfl]
      exact writeBytesAt_overflow2 t5 2048 2048 [0x61] (by decide))]
  have hLoop : encodeMapEntriesS (encodeItemS 1 none) none
      [("a", .bytes (List.replicate 2042 0)), ("b", .num 0)] ⟨t1, 2048, 1⟩ =
      .error .rangeError := by
    rw [encodeMapEntriesS_cons_none_ok (encodeItemS 1 none) "a"
      (.bytes (List.replicate 2042 0)) [("b", .num 0)] ⟨t1, 2048, 1⟩ ⟨t3, 2048, 3⟩ hKeyA]
    simp only [hValA]
    exact encodeMapEntriesS_cons_none_key_err (encodeItemS 1 none) "b" (.num 0) []
      ⟨t5, 2048, 2048⟩ .rangeError hKeyB
  have hItem : encodeItemS 2 none
      (.map [("a", .bytes (List.replicate 2042 0)), ("b", .num 0)])
      ⟨List.replicate 2048 0, 2048, 0⟩ = .error .rangeError := by
    rw [encodeItemS_two_map_ok [("a", .bytes (List.replicate 2042 0)), ("b", .num 0)]
      ⟨List.replicate 2048 0, 2048, 0⟩ ⟨t1, 2048, 1⟩ hh1]
    exact hLoop
  exact encodeTopS_none_err 2 capacityTrap freshEncState .rangeError hItem

/-- The identical call succeeds once the module buffer has grown: every
check passes and the run completes. -/
theorem capacityTrap_grown_ok :
    ∃ p, encodeTopS 2 none capacityTrap ⟨List.replicate 2160 0, 2160, 0⟩ = .ok p := by
  obtain ⟨t1, h1⟩ := writeBytesAt_shape (List.replicate 2160 0) 2160 0 [0xA2] (by decide)
  have h1t : writeBytesAt ⟨List.replicate 2160 0, 2160, 0⟩ [0xA2] = .ok ⟨t1, 2160, 1⟩ := h1
  obtain ⟨t2, h2⟩ := writeBytesAt_shape t1 2160 1 [0x61] (by decide)
  have h2t : writeBytesAt ⟨t1, 2160, 1⟩ [0x61] = .ok ⟨t2, 2160, 2⟩ := h2
  obtain ⟨t3, h3⟩ := writeBytesAt_shape t2 2160 2 [97] (by decide)
  have h3t : writeBytesAt ⟨t2, 2160, 2⟩ [97] = .ok ⟨t3, 2160, 3⟩ := h3
  obtain ⟨t4, h4⟩ := writeBytesAt_shape t3 2160 3 [0x59, 0x07, 0xFA] (by decide)
  have h4t : writeBytesAt ⟨t3, 2160, 3⟩ [0x59, 0x07, 0xFA] = .ok ⟨t4, 2160, 6⟩ := h4
  obtain ⟨t5, h5⟩ := writeBytesAt_shape t4 2160 6 (List.replicate 2042 0)
    (by rw [List.length_replicate]; try decide)
  rw [List.length_replicate] at h5
  have h5t : writeBytesAt ⟨t4, 2160, 6⟩ (List.replicate 2042 0) = .ok ⟨t5, 2160, 2048⟩ := h5
  obtain ⟨t6, h6⟩ := writeBytesAt_shape t5 2160 2048 [0x61] (by decide)
  have h6t : writeBytesAt ⟨t5, 2160, 2048⟩ [0x61] = .ok ⟨t6, 2160, 2049⟩ := h6
  obtain ⟨t7, h7⟩ := writeBytesAt_shape t6 2160 2049 [98] (by decide)
  have h7t : writeBytesAt ⟨t6, 2160, 2049⟩ [98] = .ok ⟨t7, 2160, 2050⟩ := h7
  obtain ⟨t8, h8⟩ := writeBytesAt_shape t7 2160 2050 [0x00] (by decide)
  have h8t : writeBytesAt ⟨t7, 2160, 2050⟩ [0x00] = .ok ⟨t8, 2160, 2051⟩ := h8
  have hh1 : encodeHeaderS 5 (.jsnum 2)
      (ensureItemHeadroom ⟨List.replicate 2160 0, 2160, 0⟩) = .ok ⟨t1, 2160, 1⟩ := by
    rw [ensureItemHeadroom_id (List.replicate 2160 0) 2160 0 (by decide)]
    rw [encodeHeaderS_eval_ok 5 (.jsnum 2) ⟨List.replicate 2160 0, 2160, 0⟩ [0xA2] rfl]
    exact h1t
  have hKeyA : encodeTextStringS "a" ⟨t1, 2160, 1⟩ = .ok ⟨t3, 2160, 3⟩ := by
    rw [encodeTextStringS, show utf8Encode "a" = [97] from rfl]
    rw [encodeBytesS_ok_header 3 [97] ⟨t1, 2160, 1⟩ ⟨t2, 2160, 2⟩ (by
      rw [encodeHeaderS_eval_ok 3 (.jsnum ([97] : List Nat).length) ⟨t1, 2160, 1⟩ [0x61] rfl]
      exact h2t)]
    rw [ensurePayloadRoom_id t2 2160 2 ([97] : List Nat).length (by decide)]
    exact h3t
  have hValA : encodeItemS 1 none (.bytes (List.replicate 2042 0)) ⟨t3, 2160, 3⟩ =
      .ok ⟨t5, 2160, 2048⟩ := by
    rw [encodeItemS_one_bytes (List.replicate 2042 0) ⟨t3, 2160, 3⟩]
    rw [ensureItemHeadroom_id t3 2160 3 (by decide)]
    rw [encodeBytesS_ok_header 2 (List.replicate 2042 0) ⟨t3, 2160, 3⟩ ⟨t4, 2160, 6⟩ (by
      rw [encodeHeaderS_eval_ok 2 (.jsnum (List.replicate 2042 (0 : Nat)).length)
        ⟨t3, 2160, 3⟩ [0x59, 0x07, 0xFA] (by rw [List.length_replicate]; rfl)]
      exact h4t)]
    rw [List.length_replicate, ensurePayloadRoom_id t4 2160 6 2042 (by decide)]
    exact h5t
  have hKeyB : encodeTextStringS "b" ⟨t5, 2160, 2048⟩ = .ok ⟨t7, 2160, 2050⟩ := by
    rw [encodeTextStringS, show utf8Encode "b" = [98] from rfl]
    rw [encodeBytesS_ok_header 3 [98] ⟨t5, 2160, 2048⟩ ⟨t6, 2160, 2049⟩ (by
      rw [encodeHeaderS_eval_ok 3 (.jsnum ([98] : List Nat).length) ⟨t5, 2160, 2048⟩ [0x61] rfl]
      exact h6t)]
    rw [ensurePayloadRoom_id t6 2160 2049 ([98] : List Nat).length (by decide)]
    exact h7t
  have hValB : encodeItemS 1 none (.num 0) ⟨t7, 2160, 2050⟩ = .ok ⟨t8, 2160, 2051⟩ := by
    rw [encodeItemS_one_num 0 ⟨t7, 2160, 2050⟩]
    rw [ensureItemHeadroom_id t7 2160 2050 (by decide)]
    rw [encodeNumberS_eval_ok (.num 0) ⟨t7, 2160, 2050⟩ [0x00] rfl]
    exact h8t
  have hLoop : encodeMapEntriesS (encodeItemS 1 none) none
      [("a", .bytes (List.replicate 2042 0)), ("b", .num 0)] ⟨t1, 2160, 1⟩ =
      .ok ⟨t8, 2160, 2051⟩ := by
    rw [encodeMapEntriesS_cons_none_ok (encodeItemS 1 none) "a"
      (.bytes (List.replicate 2042 0)) [("b", .num 0)] ⟨t1, 2160, 1⟩ ⟨t3, 2160, 3⟩ hKeyA]
    simp only [hValA]
    rw [encodeMapEntriesS_cons_none_ok (encodeItemS 1 none) "b" (.num 0) []
      ⟨t5, 2160, 2048⟩ ⟨t7, 2160, 2050⟩ hKeyB]
    simp only [hValB]
    exact encodeMapEntriesS_nil (encodeItemS 1 none) none ⟨t8, 2160, 2051⟩
  have hItem : encodeItemS 2 none
      (.map [("a", .bytes (List.replicate 2042 0)), ("b", .num 0)])
      ⟨List.replicate 2160 0, 2160, 0⟩ = .ok ⟨t8, 2160, 2051⟩ := by
    rw [encodeItemS_two_map_ok [("a", .bytes (List.replicate 2042 0)), ("b", .num 0)]
      ⟨List.replicate 2160 0, 2160, 0⟩ ⟨t1, 2160, 1⟩ hh1]
    exact hLoop
  exact ⟨_, encodeTopS_none_okp 2 capacityTrap ⟨List.replicate 2160 0, 2160, 0⟩
    ⟨t8, 2160, 2051⟩ hItem⟩

/-! ## Claim theorems: concrete evaluations -/

/-- C1 (counterexample): the round-trip claim fails as stated.  The JS
number 2^32 = 4294967296 is a representable Value (its magnitude is
below 2^53−1), but `decode(encode(4294967296))` yields the bigint
`4294967296n`, which is not structurally equal to the number. -/
theorem C1_counterexample :
    (encode (.num 4294967296)).bind (fun bs => decode bs none) = .ok (.big 4294967296) ∧
    CborValue.big 4294967296 ≠ CborValue.num 4294967296 := by
  constructor
  · rfl
  · simp

/-- C2 (counterexample): integer promotion on the decode path is not at
the 2^53−1 boundary.  The minimal encoding of 2^32 uses the 8-byte
field, and decoding it yields an arbitrary-precision integer even
though its magnitude is far below 2^53−1. -/
theorem C2_counterexample :
    decode [0x1B, 0, 0, 0, 1, 0, 0, 0, 0] none = .ok (.big 4294967296) ∧
    (4294967296 : Int) < 2 ^ 53 - 1 ∧
    CborValue.big 4294967296 ≠ CborValue.num 4294967296 := by
  refine ⟨rfl, by norm_num, by simp⟩

/-- C4: the negative-integer mapping is exact at both boundaries —
`decode(encode(-1)) = -1`, `decode(encode(-2^64)) = -2^64`, and
encoding `-2^64 - 1` fails with the exact `EncodingError` message
carrying the decimal magnitude 2^64. -/
theorem C4_negative_boundary :
    (encode (.num (-1))).bind (fun bs => decode bs none) = .ok (.num (-1)) ∧
    (encode (.big (-18446744073709551616))).bind (fun bs => decode bs none) =
      .ok (.big (-18446744073709551616)) ∧
    encode (.big (-18446744073709551617)) =
      .error (.encodingError "Value too large to encode: 18446744073709551616") := by
  refine ⟨rfl, rfl, rfl⟩

/-- C5 (code bug): decode does not uniformly fail with a `DecodingError`
on truncated input.  A byte string declaring two content bytes with only
one present decodes *successfully* to the clamped one-byte sequence; a
truncated 1-byte integer field raises a `RangeError` (from `DataView`)
instead of a `DecodingError`; only the missing-header case raises the
`DecodingError`. -/
theorem C5_truncation_behavior :
    decode [0x42, 0x01] none = .ok (.bytes [0x01]) ∧
    decode [0x18] none = .error .rangeError ∧
    decode [] none = .error (.decodingError "Provided CBOR data is empty") := by
  refine ⟨rfl, rfl, rfl⟩

/-- C6 (code bug): the text-key check exists only in the definite-length
map loop.  In an indefinite-length map the bytes
`BF 01 41 02 FF` — whose key header `0x01` has major type
UnsignedInteger, not TextString — decode *successfully*: the integer
header's info field is misread as a one-byte text key, producing
`{"A": 2}`.  A definite-length map with the same non-text key does
fail as the claim demands. -/
theorem C6_indefinite_map_key :
    decode [0xBF, 0x01, 0x41, 0x02, 0xFF] none = .ok (.map [("A", .num 2)]) ∧
    decode [0xA1, 0x01, 0x02] none = .error (.decodingError "Map keys must be text strings") := by
  refine ⟨rfl, rfl⟩

/-- C7 (counterexample): the break marker can appear in the produced
Value.  Decoding the bare break byte `0xFF` succeeds and returns the
`CBOR_STOP_CODE` symbol as the top-level result, and a definite-length
array containing a break byte keeps the symbol as an element. -/
theorem C7_counterexample :
    decode [0xFF] none = .ok .stopCode ∧
    decode [0x81, 0xFF] none = .ok (.arr [.stopCode]) := by
  refine ⟨rfl, rfl⟩

/-- C8 (code bug): `decodeArray` invokes the reviver on each element
with *no* key argument, not the stringified index.  A reviver that
echoes the key it receives on numbers (or `"nokey"` when none is
passed) turns `[5]` into `["nokey"]`; under the claim (and the
`Reviver` doc comment of the source) it would produce `["0"]`.  The map
loops do pass the key, as the second conjunct shows. -/
theorem C8_missing_index :
    decode [0x81, 0x05] (some keyProbeReviver) = .ok (.arr [.str "nokey"]) ∧
    CborValue.str "nokey" ≠ CborValue.str "0" ∧
    decode [0xA1, 0x61, 0x61, 0x05] (some keyProbeReviver) = .ok (.map [("a", .str "a")]) := by
  refine ⟨rfl, by simp, rfl⟩

/-- C9 (counterexample): a transform's return value does *not* always
take effect.  A reviver that returns `null` for every node is ignored
(the `??` fallback restores the original value): decoding the number 5
with it still yields 5, not `null`. -/
theorem C9_counterexample :
    decode [0x05] (some constNullReviver) = .ok (.num 5) ∧
    CborValue.num 5 ≠ CborValue.null := by
  refine ⟨rfl, by simp⟩

set_option maxRecDepth 6000 in
/-- C10 (counterexample): the cursor/output state is module-level and
shared.  An `encode([1, 2], replacer)` call whose replacer reentrantly
invokes `encode(true)` returns `[0xF5, 0x02]` — the inner call reset
the shared write offset and clobbered the buffer — while a fresh
isolated call returns `[0x82, 0x01, 0x02]`; the two inner calls
themselves each return `[0xF5]`. -/
theorem C10_counterexample :
    (encodeTopS 8 (some reentrantReplacer) (.arr [.num 1, .num 2]) freshEncState).map Prod.fst =
      .ok [0xF5, 0x02] ∧
    encode (.arr [.num 1, .num 2]) = .ok [0x82, 0x01, 0x02] ∧
    ([0xF5, 0x02] : List Nat) ≠ [0x82, 0x01, 0x02] := by
  refine ⟨rfl, rfl, by simp⟩

/-- C1 (amended): the encoder-decoder pair round-trips every canonical
value whose encode call completes.  Whenever `encode` (run with no
replacer against any inherited module state) returns bytes for a
canonical value — integers in the representation the decoder reproduces,
in-range lengths, distinct map keys, byte entries below 256, no
±Infinity and no stop-code symbol — decoding those bytes yields the
value back.  (The call can instead fail with a buffer-capacity
`RangeError`, see `capacityTrap` and `C10_no_replacer_isolation`, so
completion is a hypothesis here.) -/
theorem C1_roundtrip :
    ∀ (v : CborValue) (st : EncState) (fuel : Nat) (bs : List Nat) (st2 : EncState),
      st.target.length = st.cap →
      canonical v = true →
      encodeTopS fuel none v st = .ok (bs, st2) →
      decode bs none = .ok v := by
  intro v st fuel bs st2 hwf hcan htop
  have hpure : encodeItemBytes fuel v = .ok bs :=
    encodeTopS_none_sound fuel v st bs st2 hwf htop
  have hfd : vdepth v ≤ fuel := vdepth_le_of_encodeItemBytes_ok v fuel bs hpure
  have henc : encode v = .ok bs := by
    rw [encode_eq_itemBytes v fuel hfd]
    exact hpure
  have hvd : vdepth v ≤ bs.length + 1 := by
    have := vdepth_le_encLength v fuel bs hpure
    omega
  have hmain := decodeItem_of_encoded v [] [] bs (bs.length + 1) hcan henc hvd
  simp only [List.nil_append, List.append_nil, List.length_nil, Nat.zero_add] at hmain
  rw [decode]
  simp only [hmain]
  rfl

theorem C1_roundtrip_witness :
    decode [0xA2, 0x61, 0x61, 0x01, 0x61, 0x62, 0x81, 0xF5] none =
      .ok (CborValue.map [("a", .num 1), ("b", .arr [.bool true])]) :=
  C1_roundtrip (CborValue.map [("a", .num 1), ("b", .arr [.bool true])])
    ⟨List.replicate 32 0, 32, 0⟩ 4 [0xA2, 0x61, 0x61, 0x01, 0x61, 0x62, 0x81, 0xF5] _
    rfl rfl rfl

/-- C2 (amended): on the decode path, representation promotion follows
the wire field width, not the 2^53−1 boundary — every read with info
below 27 (literal or 1/2/4-byte field) yields a JS `number`, and the
8-byte field (info 27) always yields a `bigint`. -/
theorem C2_width_promotion :
    ∀ (bs : List Nat) (off info : Nat) (u : UNum) (off2 : Nat),
      decodeUnsignedInteger bs off info = .ok (u, off2) →
      ((info < 27 → ∃ m : Nat, u = .unum m) ∧ (info = 27 → ∃ m : Nat, u = .ubig m)) := by
  intro bs off info u off2 h
  constructor
  · intro hi
    by_cases h23 : info ≤ 23
    · rw [decodeUnsignedInteger.eq_def, if_pos h23] at h
      cases h
      exact ⟨info, rfl⟩
    · have h24 : 24 ≤ info := by omega
      interval_cases info
      · have h1 : (match readUintBE bs off 1 with
            | .ok (n, off1) => (.ok (.unum n, off1) : Except JsErr (UNum × Nat))
            | .error e => .error e) = .ok (u, off2) := h
        rcases hr : readUintBE bs off 1 with e | p
        · simp only [hr] at h1
          cases h1
        · obtain ⟨n, off1⟩ := p
          simp only [hr] at h1
          cases h1
          exact ⟨n, rfl⟩
      · have h1 : (match readUintBE bs off 2 with
            | .ok (n, off1) => (.ok (.unum n, off1) : Except JsErr (UNum × Nat))
            | .error e => .error e) = .ok (u, off2) := h
        rcases hr : readUintBE bs off 2 with e | p
        · simp only [hr] at h1
          cases h1
        · obtain ⟨n, off1⟩ := p
          simp only [hr] at h1
          cases h1
          exact ⟨n, rfl⟩
      · have h1 : (match readUintBE bs off 4 with
            | .ok (n, off1) => (.ok (.unum n, off1) : Except JsErr (UNum × Nat))
            | .error e => .error e) = .ok (u, off2) := h
        rcases hr : readUintBE bs off 4 with e | p
        · simp only [hr] at h1
          cases h1
        · obtain ⟨n, off1⟩ := p
          simp only [hr] at h1
          cases h1
          exact ⟨n, rfl⟩
  · intro hi
    subst hi
    have h1 : (match readUintBE bs off 8 with
        | .ok (n, off1) => (.ok (.ubig n, off1) : Except JsErr (UNum × Nat))
        | .error e => .error e) = .ok (u, off2) := h
    rcases hr : readUintBE bs off 8 with e | p
    · simp only [hr] at h1
      cases h1
    · obtain ⟨n, off1⟩ := p
      simp only [hr] at h1
      cases h1
      exact ⟨n, rfl⟩

theorem C2_width_promotion_witness :
    ((26 < 27 → ∃ m : Nat, UNum.unum 16909060 = .unum m) ∧
      (26 = 27 → ∃ m : Nat, UNum.unum 16909060 = .ubig m)) :=
  C2_width_promotion [1, 2, 3, 4] 0 26 (.unum 16909060) 4 rfl

/-- C3: `encode` emits the minimal-width header for every integer it
accepts — general minimality for JS numbers and bigints of either sign,
plus the spec's four boundary examples. -/
theorem C3_minimal_header :
    (∀ (n : Int) (bs : List Nat), encode (.num n) = .ok bs →
      MinimalOut (if 0 ≤ n then 0 else 1) (jsMagnitude n) bs) ∧
    (∀ (n : Int) (bs : List Nat), encode (.big n) = .ok bs →
      MinimalOut (if 0 ≤ n then 0 else 1) (jsMagnitude n) bs) ∧
    encode (.num 23) = .ok [0x17] ∧
    encode (.num 24) = .ok [0x18, 0x18] ∧
    encode (.num 255) = .ok [0x18, 0xFF] ∧
    encode (.num 256) = .ok [0x19, 0x01, 0x00] := by
  refine ⟨?_, ?_, rfl, rfl, rfl, rfl⟩
  · intro n bs h
    rw [encode] at h
    obtain ⟨g, hg⟩ : ∃ g, vdepth (.num n) = g + 1 :=
      ⟨vdepth (.num n) - 1, by have := vdepth_pos (.num n); omega⟩
    rw [hg, encodeItemBytes, encodeNumberBytes] at h
    by_cases hn : 0 ≤ n
    · rw [if_pos hn] at h
      rw [if_pos hn, jsMagnitude, if_pos hn]
      exact encodeHeaderBytes_minimal 0 n.toNat (.jsnum n)
        (fun c => by rw [Int.toNat_of_nonneg hn]; rfl) rfl bs h
    · rw [if_neg hn] at h
      rw [if_neg hn, jsMagnitude, if_neg hn]
      exact encodeHeaderBytes_minimal 1 (-1 - n).toNat (.jsnum (-1 - n))
        (fun c => by rw [Int.toNat_of_nonneg (by omega : (0 : Int) ≤ -1 - n)]; rfl) rfl bs h
  · intro n bs h
    rw [encode] at h
    obtain ⟨g, hg⟩ : ∃ g, vdepth (.big n) = g + 1 :=
      ⟨vdepth (.big n) - 1, by have := vdepth_pos (.big n); omega⟩
    rw [hg, encodeItemBytes, encodeNumberBytes] at h
    by_cases hn : 0 ≤ n
    · rw [if_pos hn] at h
      rw [if_pos hn, jsMagnitude, if_pos hn]
      exact encodeHeaderBytes_minimal 0 n.toNat (.jsbig n)
        (fun c => by rw [Int.toNat_of_nonneg hn]; rfl) rfl bs h
    · rw [if_neg hn] at h
      rw [if_neg hn, jsMagnitude, if_neg hn]
      exact encodeHeaderBytes_minimal 1 (-1 - n).toNat (.jsbig (-1 - n))
        (fun c => by rw [Int.toNat_of_nonneg (by omega : (0 : Int) ≤ -1 - n)]; rfl) rfl bs h

theorem C3_minimal_header_witness :
    MinimalOut (if (0 : Int) ≤ 256 then 0 else 1) (jsMagnitude 256) [0x19, 0x01, 0x00] :=
  C3_minimal_header.1 256 [0x19, 0x01, 0x00] rfl

/-- C7 (amended): only the indefinite-length array loop consumes the
break marker as a terminator and never lets it into its elements (with
no reviver installed); the second conjunct shows a full indefinite
decode where the break byte is consumed. -/
theorem C7_break_filtered :
    (∀ (dI : Nat → Except JsErr (CborValue × Nat)) (fuel off : Nat)
      (vs : List CborValue) (off2 : Nat),
      decodeArrayIndef dI none fuel off = .ok (vs, off2) → CborValue.stopCode ∉ vs) ∧
    decode [0x9F, 0x01, 0xFF] none = .ok (.arr [.num 1]) := by
  constructor
  · intro dI fuel
    induction fuel with
    | zero =>
      intro off vs off2 h
      rw [decodeArrayIndef] at h
      cases h
    | succ f ih =>
      intro off vs off2 h
      rw [decodeArrayIndef] at h
      rcases hd : dI off with e | p
      · simp only [hd] at h
        cases h
      · obtain ⟨item, off1⟩ := p
        simp only [hd] at h
        cases item
        case stopCode =>
          cases h
          simp
        all_goals
          rcases hrest : decodeArrayIndef dI none f off1 with e | q
          · simp only [hrest] at h
            cases h
          · obtain ⟨rest, off3⟩ := q
            simp only [hrest] at h
            cases h
            intro hmem
            rcases List.mem_cons.mp hmem with hx | hx
            · simp [applyReviver] at hx
            · exact ih off1 rest _ hrest hx
  · rfl

theorem C7_break_filtered_witness :
    CborValue.stopCode ∉ [CborValue.num 1] :=
  C7_break_filtered.1 (decodeItem 3 none [0x9F, 0x01, 0xFF]) 3 1 [CborValue.num 1] 3 rfl

/-- C9 (amended): a transform's return value takes effect through JS
nullish coalescing — it replaces the node unless it is `null` or
`undefined`, in which case the original value is kept, as the general
decode equation for single-byte integers under an arbitrary reviver
shows. -/
theorem C9_transform_coalesced :
    (∀ (f : Reviver) (n : Nat), n ≤ 23 →
      decode [n] (some f) = .ok (jsCoalesce (f (.num n) none) (.num n))) ∧
    (∀ r orig : CborValue, (r ≠ .null → r ≠ .undef → jsCoalesce r orig = r) ∧
      ((r = .null ∨ r = .undef) → jsCoalesce r orig = orig)) := by
  constructor
  · intro f n hn
    have hitem : decodeItem ([n].length + 1) (some f) [n] 0 = .ok (.num n, 1) := by
      rw [decodeItem]
      have hnext := decodeNextByte_at [] n []
      simp only [List.nil_append, List.length_nil, Nat.zero_add] at hnext
      have hmaj : decodeMajorType n = 0 := by
        rw [decodeMajorType]
        omega
      have hinfo : decodeInfo n = n := by
        rw [decodeInfo]
        omega
      rw [hmaj, hinfo] at hnext
      have hu : decodeUnsignedInteger [n] 1 n = .ok (.unum n, 1) := by
        rw [decodeUnsignedInteger.eq_def, if_pos hn]
      simp only [hnext, hu, uNumToValue]
    rw [decode]
    simp only [hitem, applyReviver]
  · intro r orig
    constructor
    · intro h1 h2
      cases r
      all_goals first
        | exact absurd rfl h1
        | exact absurd rfl h2
        | rfl
    · intro h
      rcases h with rfl | rfl
      · rfl
      · rfl

theorem C9_transform_coalesced_witness :
    decode [5] (some (constNumReviver 7)) =
      .ok (jsCoalesce (constNumReviver 7 (.num 5) none) (.num 5)) ∧
    jsCoalesce (constNumReviver 7 (.num 5) none) (.num 5) = .num 7 :=
  ⟨C9_transform_coalesced.1 (constNumReviver 7) 5 (by decide), rfl⟩

/-- C10 (amended): the isolation claim splits on whether the call can
reach the shared module state.  A call without a replacer that returns
bytes returns exactly the pure encoding of its argument, from any
well-formed inherited module state — but whether it returns at all does
depend on the inherited buffer: `capacityTrap` raises the buffer-capacity
`RangeError` from a fresh module while the identical call succeeds once
the module buffer has grown, and a reentrant replacer clobbers the
output outright (`C10_counterexample`). -/
theorem C10_no_replacer_isolation :
    (∀ (v : CborValue) (st : EncState) (fuel : Nat) (bs : List Nat) (st2 : EncState),
      st.target.length = st.cap →
      encodeTopS fuel none v st = .ok (bs, st2) → encodeItemBytes fuel v = .ok bs) ∧
    encodeTopS 2 none capacityTrap freshEncState = .error .rangeError ∧
    (∃ p, encodeTopS 2 none capacityTrap ⟨List.replicate 2160 0, 2160, 0⟩ = .ok p) := by
  refine ⟨?_, capacityTrap_fresh_err, capacityTrap_grown_ok⟩
  intro v st fuel bs st2 hwf h
  exact encodeTopS_none_sound fuel v st bs st2 hwf h

theorem C10_no_replacer_isolation_witness :
    encodeItemBytes 2 (.bool true) = .ok [0xF5] :=
  C10_no_replacer_isolation.1 (.bool true) ⟨List.replicate 8 0, 8, 0⟩ 2 [0xF5] _ rfl rfl

end Cbor
